import Mathlib

/-!
Verification development for the AsiaServisPortal PDF-report pipeline.

Shallow embedding of the two core modules:
  * `app/parser.py`  — positional table extraction from per-page token lists
    (`_parse_rows_by_columns`, `_extract_meta`, `_clean_text`, `parse_report_pdf`);
  * `app/main.py`    — multi-document aggregation (`_period_start`, the
    aggregation loop of `page_report`, and `api_report_data`).

Modelling conventions:
  * a pdfplumber word is a `Token` with `text`, `x0` and `top`; the float
    coordinates are embedded as rationals;
  * Python regex shape tests (`re.fullmatch` on fixed patterns) become
    executable `Bool` functions over the string's character list; the `\d`
    class is modelled as ASCII digits, `[A-Z]` as ASCII uppercase;
  * `re.search` is modelled by trying the pattern at every suffix, leftmost
    first; the concrete patterns used here are deterministic except for a
    small, explicitly handled backtracking case in `Регион:\s*(.+)`;
  * Python `sorted` (a stable sort) becomes `List.insertionSort`, which is
    also stable, so it computes the same list;
  * a Python `set` used only for membership tests becomes a `List` of keys;
  * code that can raise (`datetime.strptime`, `float`) returns `Option`,
    `none` standing for the raised exception.
-/

/-- A pdfplumber word: text plus bounding-box coordinates `x0` (left edge)
and `top` (vertical position). -/
structure Token where
  text : String
  x0 : ℚ
  top : ℚ
  deriving Repr, DecidableEq

/-- ASCII digit, modelling the `\d` class of `re`. -/
def isDig (c : Char) : Bool := c.isDigit

/-- ASCII uppercase letter, modelling the `[A-Z]` class. -/
def isUp (c : Char) : Bool := 'A' ≤ c && c ≤ 'Z'

/-- The `[A-Z0-9]` class. -/
def isUpDig (c : Char) : Bool := isUp c || isDig c

/-- Python whitespace characters recognised by `\s` and `str.strip()`
(ASCII part). -/
def isPyWs (c : Char) : Bool :=
  c == ' ' || c == '\t' || c == '\n' || c == '\r' || c == '\x0b' || c == '\x0c'

/-- `re.fullmatch(r"\d{12}", t)`: the anchor (ИИН/БИН) shape. -/
def reIin (s : String) : Bool := s.length == 12 && s.data.all isDig

/-- `re.fullmatch(r"[A-Z0-9]{7,8}", t)`: the bank-code base shape. -/
def reBank (s : String) : Bool :=
  (s.length == 7 || s.length == 8) && s.data.all isUpDig

/-- `re.fullmatch(r"KZ[0-9A-Z]{5}", t)`: the account-number (ИИК) prefix shape. -/
def reKZ (s : String) : Bool :=
  s.length == 7 && s.data.take 2 == ['K', 'Z'] && (s.data.drop 2).all isUpDig

/-- `re.fullmatch(r"\d{6}", t)`: the budget-code (КБК) shape. -/
def reKbk (s : String) : Bool := s.length == 6 && s.data.all isDig

/-- Tail of the amount pattern after its first digit: `[\d,]*\.\d{2}`.
Since `.` is not in the class `[\d,]`, the regex engine's greedy matching is
deterministic and equals this structural recursion. -/
def amountTail : List Char → Bool
  | [] => false
  | c :: rest =>
    if c == '.' then
      match rest with
      | [d1, d2] => isDig d1 && isDig d2
      | _ => false
    else (isDig c || c == ',') && amountTail rest

/-- `re.fullmatch(r"\d[\d,]*\.\d{2}", t)`: the amount shape. -/
def reAmount (s : String) : Bool :=
  match s.data with
  | c :: rest => isDig c && amountTail rest
  | [] => false

/-- `re.fullmatch(r"\d+\*?", t)`: the payment-number shape. -/
def rePayNo (s : String) : Bool :=
  match s.data.getLast? with
  | none => false
  | some c =>
    if c == '*' then !s.data.dropLast.isEmpty && s.data.dropLast.all isDig
    else s.data.all isDig

/-- `re.fullmatch(r"[A-Z]", t)`: a single uppercase letter (bank-code
continuation suffix shape). -/
def reUp1 (s : String) : Bool := s.length == 1 && s.data.all isUp

/-- `re.fullmatch(r"[0-9A-Z]+", t)`: an account-number continuation
fragment shape. -/
def reAlnum (s : String) : Bool := !s.data.isEmpty && s.data.all isUpDig

/-- One output row of `_parse_rows_by_columns` (the dict built at
`parser.py:119-126`). -/
structure Record where
  pay_no : String
  iin_bin : String
  bank_code : String
  iik : String
  kbk : String
  amount_in : String
  deriving Repr, DecidableEq

/-- The four per-line accumulator fields of one anchor row
(`bank_base`, `iik_prefix`, `kbk`, `amount` at `parser.py:59-62`;
`iik_prefix` is spelled `iikPre` here). -/
structure CoreFields where
  bank_base : String
  iikPre : String
  kbk : String
  amount : String
  deriving Repr, DecidableEq

/-- Condition of `parser.py:68`: bank-code base column,
`320 <= x0 <= 385` and shape `[A-Z0-9]{7,8}`. -/
def bankCodeAccepts (x : ℚ) (t : String) : Bool :=
  decide (320 ≤ x) && decide (x ≤ 385) && reBank t

/-- Condition of `parser.py:72`: account-prefix column,
`385 <= x0 <= 470` and shape `KZ[0-9A-Z]{5}`. -/
def iikPreAccepts (x : ℚ) (t : String) : Bool :=
  decide (385 ≤ x) && decide (x ≤ 470) && reKZ t

/-- Condition of `parser.py:76`: budget-code column,
`420 <= x0 <= 500` and shape `\d{6}`. -/
def kbkAccepts (x : ℚ) (t : String) : Bool :=
  decide (420 ≤ x) && decide (x ≤ 500) && reKbk t

/-- Condition of `parser.py:80`: amount column, `x0 >= 505` and shape
`\d[\d,]*\.\d{2}`. -/
def amountAccepts (x : ℚ) (t : String) : Bool :=
  decide (505 ≤ x) && reAmount t

/-- One iteration of the `for w in line` classification loop
(`parser.py:65-81`); each field is overwritten when its condition fires. -/
def classifyTok (acc : CoreFields) (w : Token) : CoreFields :=
  { bank_base := if bankCodeAccepts w.x0 w.text then w.text else acc.bank_base
    iikPre := if iikPreAccepts w.x0 w.text then w.text else acc.iikPre
    kbk := if kbkAccepts w.x0 w.text then w.text else acc.kbk
    amount := if amountAccepts w.x0 w.text then w.text else acc.amount }

/-- The row-band test `abs(w["top"] - top) < 2.5` of `parser.py:54`,
computed on integer numerators/denominators (the rational arithmetic of
this toolchain does not evaluate under `decide`); `nearBand_iff` below
proves it equal to the literal condition. -/
def nearBand (a t : ℚ) : Bool :=
  decide (((a.num * (t.den : ℤ) - t.num * (a.den : ℤ)).natAbs : ℤ) * 2 <
    5 * ((a.den : ℤ) * (t.den : ℤ)))

/-- `line = sorted([w for w in words if abs(w["top"] - top) < 2.5], key=x0)`
(`parser.py:54-55`). -/
def lineOf (words : List Token) (top : ℚ) : List Token :=
  (words.filter (fun w => nearBand w.top top)).insertionSort
    (fun a b => a.x0 ≤ b.x0)

/-- The core-band accumulator of one anchor row: fold of the
classification loop over the row's line. -/
def coreOf (words : List Token) (top : ℚ) : CoreFields :=
  (lineOf words top).foldl classifyTok ⟨"", "", "", ""⟩

/-- The payment-number scan (`parser.py:84-88`): first token in the line
matching `\d+\*?`, else empty. -/
def payNoOf (line : List Token) : String :=
  match line.find? (fun w => rePayNo w.text) with
  | some w => w.text
  | none => ""

/-- `between = sorted([w for w in words if top < w["top"] < next_top],
key=(top, x0))` (`parser.py:93-94`). -/
def betweenOf (words : List Token) (top nt : ℚ) : List Token :=
  (words.filter (fun w => decide (top < w.top) && decide (w.top < nt))).insertionSort
    (fun a b => a.top < b.top ∨ (a.top = b.top ∧ a.x0 ≤ b.x0))

/-- The bank-code suffix scan (`parser.py:97-101`): text of the first
continuation token in the bank column that is a single uppercase letter,
else empty. -/
def bankSfxOf (btw : List Token) : String :=
  match btw.find? (fun w =>
      decide (320 ≤ w.x0) && decide (w.x0 ≤ 385) && reUp1 w.text) with
  | some w => w.text
  | none => ""

/-- The account-number continuation fragments (`parser.py:108-111`):
texts of continuation tokens in the account column matching `[0-9A-Z]+`,
in (top, x0) order. -/
def contPartsOf (btw : List Token) : List String :=
  (btw.filter (fun w =>
      decide (385 ≤ w.x0) && decide (w.x0 ≤ 470) && reAlnum w.text)).map (·.text)

/-- The bank-code merge of `parser.py:103-105`: append the continuation
suffix only to a non-empty 7-character base with a non-empty suffix. -/
def bankMerge (base sfx : String) : String :=
  if base ≠ "" ∧ base.length = 7 ∧ sfx ≠ "" then base ++ sfx else base

/-- The account-number merge of `parser.py:113-116`: prefix plus
concatenated continuation fragments, sliced to 20 characters when longer. -/
def iikMerge (pre : String) (parts : List String) : String :=
  let raw := pre ++ String.join parts
  if raw.length > 20 then ⟨raw.data.take 20⟩ else raw

/-- The body of one iteration of the anchor loop (`parser.py:49-126`):
the record built for anchor `iw` with next-anchor top `nt`. -/
def rowFor (words : List Token) (iw : Token) (nt : ℚ) : Record :=
  let cf := coreOf words iw.top
  let btw := betweenOf words iw.top nt
  { pay_no := payNoOf (lineOf words iw.top)
    iin_bin := iw.text
    bank_code := bankMerge cf.bank_base (bankSfxOf btw)
    iik := iikMerge cf.iikPre (contPartsOf btw)
    kbk := cf.kbk
    amount_in := cf.amount }

/-- `iin_words = sorted([w for w in words if fullmatch(\d{12}, text)],
key=top)` (`parser.py:45-46`). -/
def anchorsOf (words : List Token) : List Token :=
  (words.filter (fun w => reIin w.text)).insertionSort
    (fun a b => a.top ≤ b.top)

/-- The anchor loop (`parser.py:49`): each anchor paired with the top of
the following anchor, `10**9` for the last. -/
def rowsAux (words : List Token) : List Token → List Record
  | [] => []
  | iw :: rest =>
    let nt : ℚ := match rest with | [] => (1000000000 : ℚ) | nw :: _ => nw.top
    rowFor words iw nt :: rowsAux words rest

/-- The six-field dedup key of `parser.py:132`. -/
def recKey (r : Record) : String × String × String × String × String × String :=
  (r.pay_no, r.iin_bin, r.bank_code, r.iik, r.kbk, r.amount_in)

/-- The dedup loop of `parser.py:129-136`; the `seen` set is modelled as a
list of keys used only for membership. -/
def dedupAux (seen : List (String × String × String × String × String × String)) :
    List Record → List Record
  | [] => []
  | r :: rs =>
    if recKey r ∈ seen then dedupAux seen rs
    else r :: dedupAux (recKey r :: seen) rs

/-- `_parse_rows_by_columns` (`parser.py:33-138`), over the page's word list. -/
def parseRows (words : List Token) : List Record :=
  dedupAux [] (rowsAux words (anchorsOf words))

/-- One pdfplumber page as the parser consumes it: its extracted full text
and its extracted word list. -/
structure Page where
  text : String
  words : List Token
  deriving Repr, DecidableEq

/-- Collapse of `re.sub(r"[ \t]+", " ", t)`: every maximal run of spaces
and tabs becomes one space. -/
def collapseST : List Char → List Char
  | [] => []
  | c :: cs =>
    if c == ' ' || c == '\t' then
      match collapseST cs with
      | ' ' :: rest => ' ' :: rest
      | other => ' ' :: other
    else c :: collapseST cs

/-- Python `str.strip()` (ASCII whitespace). -/
def pyStrip (s : String) : String :=
  ⟨((s.data.dropWhile isPyWs).reverse.dropWhile isPyWs).reverse⟩

/-- `_clean_text` (`parser.py:9-12`): non-breaking spaces to spaces,
space/tab runs collapsed, ends stripped. -/
def cleanText (t : String) : String :=
  pyStrip ⟨collapseST (t.data.map (fun c => if c == '\u00A0' then ' ' else c))⟩

/-- Match a literal character list at the head, returning the remainder. -/
def litPre : List Char → List Char → Option (List Char)
  | [], rest => some rest
  | _ :: _, [] => none
  | p :: ps, c :: cs => if p == c then litPre ps cs else none

/-- Match exactly `n` characters of class `\d`, returning them and the
remainder (`[0-9]{n}` as used in the metadata patterns). -/
def takeDigits : ℕ → List Char → Option (List Char × List Char)
  | 0, cs => some ([], cs)
  | _ + 1, [] => none
  | n + 1, c :: cs =>
    if isDig c then (takeDigits n cs).map (fun p => (c :: p.1, p.2)) else none

/-- Match one literal character, returning the remainder. -/
def litCh (c : Char) : List Char → Option (List Char)
  | d :: cs => if d == c then some cs else none
  | [] => none

/-- `re.search` modelled as: try the position matcher at every suffix,
leftmost first (a match at the empty tail is also tried, as Python does). -/
def scanFor (f : List Char → Option α) : List Char → Option α
  | [] => f []
  | c :: cs => (f (c :: cs)) <|> scanFor f cs

/-- The `\s*(.+)` tail of `RE_REGION` at one position, with the regex
engine's greedy/backtracking semantics: greedy `\s*` first; if nothing
non-whitespace follows, backtrack to the last whitespace character that is
not a newline (`.` excludes `\n`). Returns the group-1 characters. -/
def wsDotPlus (rest : List Char) : Option (List Char) :=
  let tl := rest.dropWhile isPyWs
  match tl with
  | _ :: _ => some (tl.takeWhile (fun c => c ≠ '\n'))
  | [] =>
    match ((rest.takeWhile isPyWs).filter (fun c => c ≠ '\n')).getLast? with
    | some c => some [c]
    | none => none

/-- `RE_REGION = Регион:\s*(.+)` tried at one position (`parser.py:5`). -/
def tryRegion (cs : List Char) : Option (List Char) :=
  match litPre "Регион:".data cs with
  | none => none
  | some rest => wsDotPlus rest

/-- `RE_REPORT_DATE` tried at one position (`parser.py:6`): label, `\s*`,
then group `[0-9]{2}\.[0-9]{2}\.[0-9]{4}\s+[0-9]{2}:[0-9]{2}:[0-9]{2}`.
All quantifiers here are deterministic (whitespace and digits are
disjoint), so greedy matching is plain scanning. -/
def tryReportDate (cs : List Char) : Option (List Char) := do
  let rest ← litPre "Отчет произведен:".data cs
  let r1 := rest.dropWhile isPyWs
  let (a, r2) ← takeDigits 2 r1
  let r3 ← litCh '.' r2
  let (b, r4) ← takeDigits 2 r3
  let r5 ← litCh '.' r4
  let (c, r6) ← takeDigits 4 r5
  let ws := r6.takeWhile isPyWs
  if ws.isEmpty then none else do
  let r7 := r6.dropWhile isPyWs
  let (d, r8) ← takeDigits 2 r7
  let r9 ← litCh ':' r8
  let (e, r10) ← takeDigits 2 r9
  let r11 ← litCh ':' r10
  let (f, _) ← takeDigits 2 r11
  pure (a ++ '.' :: b ++ '.' :: c ++ ws ++ d ++ ':' :: e ++ ':' :: f)

/-- The date-range pattern
`[0-9]{2}\.[0-9]{2}\.[0-9]{4}\s*-\s*[0-9]{2}\.[0-9]{2}\.[0-9]{4}` tried at
one position, returning the matched characters. -/
def tryRangeChars (cs : List Char) : Option (List Char) := do
  let (a, r2) ← takeDigits 2 cs
  let r3 ← litCh '.' r2
  let (b, r4) ← takeDigits 2 r3
  let r5 ← litCh '.' r4
  let (c, r6) ← takeDigits 4 r5
  let w1 := r6.takeWhile isPyWs
  let r7 ← litCh '-' (r6.dropWhile isPyWs)
  let w2 := r7.takeWhile isPyWs
  let r8 := r7.dropWhile isPyWs
  let (d, r9) ← takeDigits 2 r8
  let r10 ← litCh '.' r9
  let (e, r11) ← takeDigits 2 r10
  let r12 ← litCh '.' r11
  let (f, _) ← takeDigits 4 r12
  pure (a ++ '.' :: b ++ '.' :: c ++ w1 ++ '-' :: w2 ++ d ++ '.' :: e ++ '.' :: f)

/-- `RE_PERIOD` tried at one position (`parser.py:7`): label, `\s*`, then
the date-range group. -/
def tryPeriod (cs : List Char) : Option (List Char) := do
  let rest ← litPre "Период:".data cs
  tryRangeChars (rest.dropWhile isPyWs)

/-- `_extract_meta` (`parser.py:14-31`): `(region, report_date, period)`,
each the stripped group of the first match, empty when no match. -/
def extractMeta (full : String) : String × String × String :=
  ( match scanFor tryRegion full.data with
    | some g => pyStrip ⟨g⟩
    | none => ""
  , match scanFor tryReportDate full.data with
    | some g => pyStrip ⟨g⟩
    | none => ""
  , match scanFor tryPeriod full.data with
    | some g => pyStrip ⟨g⟩
    | none => "" )

/-- The parsed-document dict of `parse_report_pdf` (`parser.py:152-157`). -/
structure Document where
  region : String
  report_date : String
  period : String
  rows : List Record
  deriving Repr, DecidableEq

/-- The cleaned concatenation of all page texts
(`parser.py:141-149`: pages joined with newlines, then `_clean_text`). -/
def fullTextOf (pages : List Page) : String :=
  cleanText (String.intercalate "\n" (pages.map (·.text)))

/-- `parse_report_pdf` (`parser.py:140-157`): page texts joined with
newlines then cleaned for metadata; per-page row lists concatenated. -/
def parseReportPdf (pages : List Page) : Document :=
  let m := extractMeta (fullTextOf pages)
  { region := m.1
    report_date := m.2.1
    period := m.2.2
    rows := (pages.map (fun p => parseRows p.words)).flatten }

/-- Leap-year rule used by `datetime`. -/
def isLeap (y : ℕ) : Bool := (y % 4 == 0 && y % 100 != 0) || y % 400 == 0

/-- Days in a month, as `datetime` validates them. -/
def daysInMonth (y m : ℕ) : ℕ :=
  if m == 2 then (if isLeap y then 29 else 28)
  else if m == 4 || m == 6 || m == 9 || m == 11 then 30 else 31

/-- Order-faithful encoding of the `datetime` values this code can build:
a date at midnight becomes `((y*100+m)*100+d) * 2`.  Comparison of two
encodings agrees with `datetime` comparison. -/
def encodeDT (y m d : ℕ) : ℕ := ((y * 100 + m) * 100 + d) * 2

/-- Encoding of `datetime.max` (`9999-12-31 23:59:59.999999`): strictly
above the encoding of every midnight date. -/
def dtMax : ℕ := ((9999 * 100 + 12) * 100 + 31) * 2 + 1

/-- `datetime.strptime(s, "%d.%m.%Y")` on a string already known to have
the `dd.mm.yyyy` digit layout: `none` models the `ValueError` raised for a
calendar-invalid date. -/
def strptimeDMY (d m y : ℕ) : Option ℕ :=
  if 1 ≤ y ∧ 1 ≤ m ∧ m ≤ 12 ∧ 1 ≤ d ∧ d ≤ daysInMonth y m then
    some (encodeDT y m d)
  else none

/-- Numeric value of a digit-character list (most significant first). -/
def digitsToNat (cs : List Char) : ℕ :=
  cs.foldl (fun a c => a * 10 + (c.toNat - 48)) 0

/-- `RE_PERIOD_RANGE` (`main.py:36-38`) tried at one position, returning
the day/month/year digit groups of the *start* date. -/
def tryRangeStart (cs : List Char) : Option (ℕ × ℕ × ℕ) := do
  let (d, r2) ← takeDigits 2 cs
  let r3 ← litCh '.' r2
  let (m, r4) ← takeDigits 2 r3
  let r5 ← litCh '.' r4
  let (y, r6) ← takeDigits 4 r5
  let r7 ← litCh '-' (r6.dropWhile isPyWs)
  let r8 := r7.dropWhile isPyWs
  let (_, r9) ← takeDigits 2 r8
  let r10 ← litCh '.' r9
  let (_, r11) ← takeDigits 2 r10
  let r12 ← litCh '.' r11
  let (_, _) ← takeDigits 4 r12
  pure (digitsToNat d, digitsToNat m, digitsToNat y)

/-- `_period_start` (`main.py:40-44`): `datetime.max` when the range
pattern does not occur in the period string, else `strptime` of the first
match's start date (`none` models the `ValueError` it can raise). -/
def periodStart (s : String) : Option ℕ :=
  match scanFor tryRangeStart s.data with
  | none => some dtMax
  | some (d, m, y) => strptimeDMY d m y

/-- The parsed-file dict built in the `page_report` loop
(`main.py:146-152`). -/
structure PFile where
  period : String
  period_start : ℕ
  region : String
  report_date : String
  rows : List Record
  deriving Repr, DecidableEq

/-- One iteration of the `for f in files` loop of `page_report`
(`main.py:136-152`), for an available file whose parse result is `d`. -/
def toPFile (d : Document) : Option PFile := do
  let ps ← periodStart (pyStrip d.period)
  pure (PFile.mk (pyStrip d.period) ps (pyStrip d.region)
    (pyStrip d.report_date) d.rows)

/-- A line of the aggregated report table (`main.py:165,184-191`). -/
inductive Line where
  | period (p : String)
  | data (iin_bin bank_code iik kbk amount_in : String)
  deriving Repr, DecidableEq

/-- The 9-field aggregation dedup key (`main.py:169-179`). -/
abbrev Key9 :=
  String × String × String × String × String × String × String × String × String

/-- The key tuple built at `main.py:169-179` for record `r` of a file with
the given period, region and report date. -/
def key9 (period region rdate : String) (r : Record) : Key9 :=
  (period, region, rdate, r.pay_no, r.iin_bin, r.bank_code, r.iik, r.kbk,
    r.amount_in)

/-- The inner `for r in pf["rows"]` loop of `page_report`
(`main.py:168-191`): emits the surviving data lines, each kept together
with the dedup key the code computed for it, and threads the `seen` set
(modelled as a key list). -/
def emitRowsA (period region rdate : String) :
    List Record → List Key9 → List (Option Key9 × Line) × List Key9
  | [], seen => ([], seen)
  | r :: rs, seen =>
    let k := key9 period region rdate r
    if k ∈ seen then emitRowsA period region rdate rs seen
    else
      let p := emitRowsA period region rdate rs (k :: seen)
      ((some k, Line.data r.iin_bin r.bank_code r.iik r.kbk r.amount_in) :: p.1,
        p.2)

/-- The outer `for pf in parsed_files` loop of `page_report`
(`main.py:161-191`): one period-header line per file (tagged with no key)
followed by its surviving data lines; `seen` is threaded across files. -/
def emitFilesA : List PFile → List Key9 → List (Option Key9 × Line)
  | [], _ => []
  | pf :: pfs, seen =>
    let p := emitRowsA pf.period pf.region pf.report_date pf.rows seen
    (none, Line.period pf.period) :: p.1 ++ emitFilesA pfs p.2

/-- The aggregation pass of `page_report` (`main.py:131-191`) over the
already-parsed available documents, keeping each emitted data line paired
with its dedup key; `none` models a `ValueError` escaping `_period_start`. -/
def aggPairs (docs : List Document) : Option (List (Option Key9 × Line)) := do
  let pfs ← docs.mapM toPFile
  let sorted := pfs.insertionSort (fun a b => a.period_start ≤ b.period_start)
  pure (emitFilesA sorted [])

/-- The `table_rows` sequence `page_report` renders (`main.py:158-193`). -/
def pageReportLines (docs : List Document) : Option (List Line) :=
  (aggPairs docs).map (fun l => l.map Prod.snd)

/-- `s.replace(",", "")` on the amount string. -/
def stripCommas (s : String) : String := ⟨s.data.filter (fun c => c ≠ ',')⟩

/-- Value of a fractional digit block `ds` read after a decimal point. -/
def fracVal (ds : List Char) : ℚ := (digitsToNat ds : ℚ) / (10 ^ ds.length)

/-- Optional exponent part `[(e|E) [+|-] digits]` of a float literal;
`none` when an `e`/`E` is present but malformed. -/
def withExp (v : ℚ) : List Char → Option (ℚ × List Char)
  | 'e' :: t => withExpTail v t
  | 'E' :: t => withExpTail v t
  | cs => some (v, cs)
where
  withExpTail (v : ℚ) (t : List Char) : Option (ℚ × List Char) :=
    let (sgn, t1) : ℤ × List Char :=
      match t with
      | '+' :: u => (1, u)
      | '-' :: u => (-1, u)
      | u => (1, u)
    let ds := t1.takeWhile isDig
    if ds.isEmpty then none
    else some (v * (10 : ℚ) ^ (sgn * (digitsToNat ds : ℤ)), t1.dropWhile isDig)

/-- Integer and fractional part of the mantissa, after splitting the
leading digit run: `ip` is the integer-digit block, `r1` the remainder. -/
def pyFloatFrac (ip r1 : List Char) : Option (ℚ × List Char) :=
  if r1.head? = some '.' then
    (if ip.isEmpty && (r1.tail.takeWhile isDig).isEmpty then none
     else withExp ((digitsToNat ip : ℚ) + fracVal (r1.tail.takeWhile isDig))
       (r1.tail.dropWhile isDig))
  else if ip.isEmpty then none else withExp (digitsToNat ip : ℚ) r1

/-- The mantissa `digits [. digits?] | . digits` of a float literal. -/
def pyFloatNum (cs : List Char) : Option (ℚ × List Char) :=
  pyFloatFrac (cs.takeWhile isDig) (cs.dropWhile isDig)

/-- Sign handling and end-of-string check of the float grammar, applied
to the whitespace-stripped character list. -/
def pyFloatSigned (cs : List Char) : Option ℚ :=
  (pyFloatNum (if cs.head? = some '+' ∨ cs.head? = some '-' then cs.tail
    else cs)).bind fun p =>
    if (p.2.dropWhile isPyWs).isEmpty then
      some ((if cs.head? = some '-' then (-1 : ℚ) else 1) * p.1)
    else none

/-- Model of the Python builtin `float(s)` on finite decimal literals
`[ws] [+|-] (digits [. digits?] | . digits) [(e|E) [+|-] digits] [ws]`,
exact (rational) instead of rounded to binary; `none` models the
`ValueError` for anything else.  The special forms `inf`/`nan` and digit
underscores are not modelled — no string this codebase feeds to `float`
can take those forms. -/
def pyFloat (s : String) : Option ℚ :=
  pyFloatSigned (s.data.dropWhile isPyWs)

/-- The numeric amount of `api_report_data` (`main.py:225`):
`float(amount.replace(",", "")) if amount else 0.0`; `none` models the
`ValueError` `float` raises on a non-empty unparsable string. -/
def amountNumeric (s : String) : Option ℚ :=
  if s = "" then some 0 else pyFloat (stripCommas s)

/-- The decimal digit character of `k % 10`. -/
def digChar (k : ℕ) : Char :=
  ['0', '1', '2', '3', '4', '5', '6', '7', '8', '9'].getD (k % 10) '0'

/-- `datetime.max.isoformat()`. -/
def isoMax : String := "9999-12-31T23:59:59.999999"

/-- `datetime.isoformat()` of the values `_period_start` can return:
`YYYY-MM-DDT00:00:00` (the `%04d-%02d-%02d` date written digit by digit)
for a midnight date, and the fixed rendering of `datetime.max`. -/
def isoOf (e : ℕ) : String :=
  if e = dtMax then isoMax
  else
    ⟨[digChar (e / 2 / 10000 / 1000), digChar (e / 2 / 10000 / 100),
      digChar (e / 2 / 10000 / 10), digChar (e / 2 / 10000), '-',
      digChar (e / 2 / 100 % 100 / 10), digChar (e / 2 / 100 % 100), '-',
      digChar (e / 2 % 100 / 10), digChar (e / 2 % 100),
      'T', '0', '0', ':', '0', '0', ':', '0', '0']⟩

/-- Strict lexicographic comparison of character lists by code point —
Python `str` comparison. -/
def clLt : List Char → List Char → Bool
  | [], [] => false
  | [], _ :: _ => true
  | _ :: _, [] => false
  | a :: l1, b :: l2 =>
    if a.toNat < b.toNat then true
    else if b.toNat < a.toNat then false
    else clLt l1 l2

/-- Python string `<=`, as the sort over `period_start` strings uses it. -/
def pyStrLe (a b : String) : Bool := !(clLt b.data a.data)

/-- A cleaned row of `api_report_data` (`main.py:219-226`). -/
structure CRow where
  iin_bin : String
  bank_code : String
  iik : String
  kbk : String
  amount_in : String
  amount_numeric : ℚ
  deriving Repr, DecidableEq

/-- A parsed-file entry of `api_report_data` (`main.py:228-234`): its
`period_start` is an ISO datetime *string*, or `""` for an empty period. -/
structure FEntry where
  period : String
  period_start : String
  region : String
  report_date : String
  rows : List CRow
  deriving Repr, DecidableEq

/-- One iteration of the `for f in files` loop of `api_report_data`
(`main.py:206-234`) for an available file parsed to `d`; `none` models an
exception from `float` or `strptime`. -/
def toFEntry (d : Document) : Option FEntry :=
  (if pyStrip d.period = "" then some ""
   else (periodStart (pyStrip d.period)).map isoOf).bind fun ps =>
  (d.rows.mapM (fun r =>
    (amountNumeric r.amount_in).map fun q =>
      CRow.mk r.iin_bin r.bank_code r.iik r.kbk r.amount_in q)).bind fun rws =>
  some (FEntry.mk (pyStrip d.period) ps (pyStrip d.region)
    (pyStrip d.report_date) rws)

/-- The `files` list `api_report_data` returns (`main.py:203-239`): the
per-file entries sorted by the `period_start` string.  The
`available_regions`/`available_periods`/`available_kbks` fields are not
modelled: they are `list(set(...))` values whose order Python leaves
unspecified. -/
def apiReportFiles (docs : List Document) : Option (List FEntry) := do
  let fs ← docs.mapM toFEntry
  pure (fs.insertionSort (fun a b => pyStrLe a.period_start b.period_start = true))

/-! ### Basic facts about the character classes and shapes -/

/-- `nearBand` is exactly the source condition `abs(w.top - top) < 2.5`. -/
lemma nearBand_iff (a t : ℚ) : nearBand a t = true ↔ |a - t| < 5/2 := by
  unfold nearBand
  rw [decide_eq_true_iff]
  have hda : (0:ℚ) < (a.den : ℚ) := by exact_mod_cast a.pos
  have hdt : (0:ℚ) < (t.den : ℚ) := by exact_mod_cast t.pos
  have hqpos : (0:ℚ) < (((a.den : ℤ) * (t.den : ℤ) : ℤ) : ℚ) := by
    push_cast
    positivity
  have hsub : a - t = ((a.num * (t.den:ℤ) - t.num * (a.den:ℤ) : ℤ) : ℚ) /
      (((a.den : ℤ) * (t.den : ℤ) : ℤ) : ℚ) := by
    rw [eq_div_iff (ne_of_gt hqpos)]
    push_cast
    calc (a - t) * ((a.den:ℚ) * (t.den:ℚ))
        = (a * a.den) * t.den - (t * t.den) * a.den := by ring
      _ = (a.num:ℚ) * t.den - (t.num:ℚ) * a.den := by
          rw [Rat.mul_den_eq_num, Rat.mul_den_eq_num]
  rw [hsub, abs_div, abs_of_pos hqpos,
    div_lt_div_iff₀ hqpos (by norm_num : (0:ℚ) < 2)]
  rw [← Int.cast_abs, Int.abs_eq_natAbs]
  constructor
  · intro h
    exact_mod_cast h
  · intro h
    exact_mod_cast h

lemma isDig_bounds {c : Char} (h : isDig c = true) :
    48 ≤ c.toNat ∧ c.toNat ≤ 57 := by
  unfold isDig Char.isDigit at h
  simp only [Bool.and_eq_true, decide_eq_true_eq, ge_iff_le] at h
  obtain ⟨h1, h2⟩ := h
  rw [UInt32.le_def, BitVec.le_def] at h1 h2
  exact ⟨h1, h2⟩

lemma reUp1_ne_empty {s : String} (h : reUp1 s = true) : s ≠ "" := by
  intro he
  subst he
  simp [reUp1] at h

lemma reKZ_length {s : String} (h : reKZ s = true) : s.length = 7 := by
  unfold reKZ at h
  simp only [Bool.and_eq_true, beq_iff_eq] at h
  exact h.1.1

lemma reKbk_length {s : String} (h : reKbk s = true) : s.length = 6 := by
  unfold reKbk at h
  simp only [Bool.and_eq_true, beq_iff_eq] at h
  exact h.1

lemma length_eq_seven_ne_empty {s : String} (h : s.length = 7) : s ≠ "" := by
  intro he
  subst he
  simp at h

/-! ### C9: mutual exclusion of the four field classifiers -/

/-- C9 counterexample: the claim "for any (x0, text) pair at most one of
the four coordinate-ranged field classifiers can accept it" is false.  At
the shared boundary `x0 = 385`, a token of shape `KZ` + 5 alphanumerics is
accepted by *both* the bank-code classifier (`320 ≤ x0 ≤ 385`,
`[A-Z0-9]{7,8}`) and the account-prefix classifier (`385 ≤ x0 ≤ 470`,
`KZ[0-9A-Z]{5}`). -/
theorem c9_counterexample :
    bankCodeAccepts 385 "KZ12345" = true ∧
      iikPreAccepts 385 "KZ12345" = true := by
  constructor <;> decide

/-- C9 amended: for every `(x0, text)` pair *except* the boundary case
`x0 = 385` with `text` of shape `KZ[0-9A-Z]{5}` (where the bank-code and
account-prefix classifiers both accept), at most one of the four
coordinate-ranged field classifiers (bank-code base, account-number
prefix, budget code, amount) accepts the token: all six pairs are
mutually exclusive. -/
theorem c9_amended (x : ℚ) (t : String)
    (h : ¬ (x = 385 ∧ reKZ t = true)) :
    ¬ (bankCodeAccepts x t = true ∧ iikPreAccepts x t = true) ∧
    ¬ (bankCodeAccepts x t = true ∧ kbkAccepts x t = true) ∧
    ¬ (bankCodeAccepts x t = true ∧ amountAccepts x t = true) ∧
    ¬ (iikPreAccepts x t = true ∧ kbkAccepts x t = true) ∧
    ¬ (iikPreAccepts x t = true ∧ amountAccepts x t = true) ∧
    ¬ (kbkAccepts x t = true ∧ amountAccepts x t = true) := by
  refine ⟨?_, ?_, ?_, ?_, ?_, ?_⟩ <;>
    rintro ⟨ha, hb⟩ <;>
    simp only [bankCodeAccepts, iikPreAccepts, kbkAccepts, amountAccepts,
      Bool.and_eq_true, decide_eq_true_eq] at ha hb
  · exact h ⟨le_antisymm ha.1.2 hb.1.1, hb.2⟩
  · linarith [ha.1.2, hb.1.1]
  · linarith [ha.1.2, hb.1]
  · have h7 := reKZ_length ha.2
    have h6 := reKbk_length hb.2
    omega
  · linarith [ha.1.2, hb.1]
  · linarith [ha.1.2, hb.1]

/-- Witness for `c9_amended` at the concrete pair `(400, "123456")`. -/
theorem c9_amended_witness :
    ¬ (bankCodeAccepts 400 "123456" = true ∧ iikPreAccepts 400 "123456" = true) ∧
    ¬ (bankCodeAccepts 400 "123456" = true ∧ kbkAccepts 400 "123456" = true) ∧
    ¬ (bankCodeAccepts 400 "123456" = true ∧ amountAccepts 400 "123456" = true) ∧
    ¬ (iikPreAccepts 400 "123456" = true ∧ kbkAccepts 400 "123456" = true) ∧
    ¬ (iikPreAccepts 400 "123456" = true ∧ amountAccepts 400 "123456" = true) ∧
    ¬ (kbkAccepts 400 "123456" = true ∧ amountAccepts 400 "123456" = true) :=
  c9_amended 400 "123456" (by decide)

/-! ### C5: bank-code continuation merge -/

/-- C5 confirmed: for every anchor row, the output bank-code equals the
core-band base with the continuation letter appended exactly when the base
has 7 characters and the continuation scan found a single-uppercase-letter
token in the bank column (`parser.py:96-105`); otherwise (8-character
base, or no such token) the base is emitted unchanged.  The second
conjunct ties the scan result to the existence of such a continuation
token: the suffix is non-empty iff the continuation region contains a
single-uppercase-letter token with `320 ≤ x0 ≤ 385` (the scan takes the
first one in (top, x0) order). -/
theorem c5_confirmed (words : List Token) (iw : Token) (nt : ℚ) :
    ((rowFor words iw nt).bank_code =
      if (coreOf words iw.top).bank_base.length = 7 ∧
          bankSfxOf (betweenOf words iw.top nt) ≠ "" then
        (coreOf words iw.top).bank_base ++ bankSfxOf (betweenOf words iw.top nt)
      else (coreOf words iw.top).bank_base) ∧
    (bankSfxOf (betweenOf words iw.top nt) ≠ "" ↔
      ∃ w ∈ betweenOf words iw.top nt,
        320 ≤ w.x0 ∧ w.x0 ≤ 385 ∧ reUp1 w.text = true) := by
  constructor
  · show bankMerge (coreOf words iw.top).bank_base
        (bankSfxOf (betweenOf words iw.top nt)) = _
    unfold bankMerge
    by_cases hc : (coreOf words iw.top).bank_base.length = 7 ∧
        bankSfxOf (betweenOf words iw.top nt) ≠ ""
    · rw [if_pos ⟨length_eq_seven_ne_empty hc.1, hc.1, hc.2⟩, if_pos hc]
    · rw [if_neg (fun hx => hc ⟨hx.2.1, hx.2.2⟩), if_neg hc]
  · unfold bankSfxOf
    rcases hf : (betweenOf words iw.top nt).find? (fun w =>
        decide (320 ≤ w.x0) && decide (w.x0 ≤ 385) && reUp1 w.text) with _ | w
    · rw [hf]
      simp only [ne_eq, not_true_eq_false, false_iff, not_exists]
      rw [List.find?_eq_none] at hf
      intro w hw
      have := hf w hw.1
      simp only [Bool.and_eq_true, decide_eq_true_eq] at this
      exact this ⟨⟨hw.2.1, hw.2.2.1⟩, hw.2.2.2⟩
    · rw [hf]
      have hmem := List.mem_of_find?_eq_some hf
      have hcond := List.find?_some hf
      simp only [Bool.and_eq_true, decide_eq_true_eq] at hcond
      simp only [ne_eq, reUp1_ne_empty hcond.2, not_false_eq_true, true_iff]
      exact ⟨w, hmem, hcond.1.1, hcond.1.2, hcond.2⟩

/-- Witness for `c5_confirmed`: an anchor row with 7-character base
`ABCD123` and continuation letter `X` merges to `ABCD123X`. -/
theorem c5_witness :
    (rowFor [⟨"123456789012", 10, 100⟩, ⟨"ABCD123", 350, 100⟩, ⟨"X", 350, 110⟩]
        ⟨"123456789012", 10, 100⟩ 1000000000).bank_code = "ABCD123X" := by
  have h := (c5_confirmed [⟨"123456789012", 10, 100⟩, ⟨"ABCD123", 350, 100⟩,
    ⟨"X", 350, 110⟩] ⟨"123456789012", 10, 100⟩ 1000000000).1
  have hcond : (coreOf [⟨"123456789012", 10, 100⟩, ⟨"ABCD123", 350, 100⟩,
      ⟨"X", 350, 110⟩] (⟨"123456789012", 10, 100⟩ : Token).top).bank_base.length = 7 ∧
      bankSfxOf (betweenOf [⟨"123456789012", 10, 100⟩, ⟨"ABCD123", 350, 100⟩,
        ⟨"X", 350, 110⟩] (⟨"123456789012", 10, 100⟩ : Token).top 1000000000) ≠ "" := by
    constructor
    · decide
    · decide
  rw [h, if_pos hcond]
  decide

/-! ### C6: account-number truncation bound -/

lemma mem_of_mem_dedupAux :
    ∀ {seen : List (String × String × String × String × String × String)}
      {rs : List Record} {r : Record}, r ∈ dedupAux seen rs → r ∈ rs := by
  intro seen rs
  induction rs generalizing seen with
  | nil => intro r h; simp [dedupAux] at h
  | cons a as ih =>
    intro r h
    unfold dedupAux at h
    by_cases hk : recKey a ∈ seen
    · rw [if_pos hk] at h
      exact List.mem_cons_of_mem a (ih h)
    · rw [if_neg hk] at h
      rcases List.mem_cons.mp h with h1 | h2
      · exact h1 ▸ List.mem_cons_self a as
      · exact List.mem_cons_of_mem a (ih h2)

lemma rowsAux_cons (words : List Token) (iw : Token) (rest : List Token) :
    rowsAux words (iw :: rest) =
      rowFor words iw (match rest with
        | [] => (1000000000 : ℚ)
        | nw :: _ => nw.top) :: rowsAux words rest := rfl

lemma mem_rowsAux {words : List Token} :
    ∀ {l : List Token} {r : Record}, r ∈ rowsAux words l →
      ∃ iw nt, r = rowFor words iw nt := by
  intro l
  induction l with
  | nil => intro r h; simp [rowsAux] at h
  | cons iw rest ih =>
    intro r h
    rw [rowsAux_cons] at h
    rcases List.mem_cons.mp h with h1 | h2
    · cases rest with
      | nil => exact ⟨iw, 1000000000, h1⟩
      | cons nw tl => exact ⟨iw, nw.top, h1⟩
    · exact ih h2

lemma iikMerge_length (pre : String) (parts : List String) :
    (iikMerge pre parts).length ≤ 20 := by
  unfold iikMerge
  set raw := pre ++ String.join parts with hraw
  by_cases hl : raw.length > 20
  · rw [if_pos hl]
    show (raw.data.take 20).length ≤ 20
    rw [List.length_take]
    omega
  · rw [if_neg hl]
    omega

lemma rowFor_iik_length (words : List Token) (iw : Token) (nt : ℚ) :
    (rowFor words iw nt).iik.length ≤ 20 :=
  iikMerge_length _ _

/-- C6 confirmed: every record in the output of `parse_report_pdf` has an
account-number (`iik`) field of at most 20 characters — when the prefix
plus continuation fragments overrun, `parser.py:115-116` silently slices
to 20 characters and never errors (the embedding is total). -/
theorem c6_confirmed (pages : List Page) (r : Record)
    (h : r ∈ (parseReportPdf pages).rows) : r.iik.length ≤ 20 := by
  have hfl : r ∈ (pages.map (fun p => parseRows p.words)).flatten := h
  rw [List.mem_flatten] at hfl
  obtain ⟨l, hl, hr⟩ := hfl
  rw [List.mem_map] at hl
  obtain ⟨p, _, rfl⟩ := hl
  have hrows : r ∈ rowsAux p.words (anchorsOf p.words) := mem_of_mem_dedupAux hr
  obtain ⟨iw, nt, rfl⟩ := mem_rowsAux hrows
  exact rowFor_iik_length p.words iw nt

/-- Witness for `c6_confirmed` on a one-page document with one anchor row. -/
theorem c6_witness :
    (Record.mk "123456789012" "123456789012" "" "" "" "").iik.length ≤ 20 :=
  c6_confirmed [⟨"", [⟨"123456789012", 10, 100⟩]⟩] _ (by decide)

/-! ### C10: account number built from continuation fragments alone -/

lemma join_data (l : List String) :
    (String.join l).data = (l.map String.data).flatten := by
  have haux : ∀ (l : List String) (s : String),
      (l.foldl (fun r t => r ++ t) s).data = s.data ++ (l.map String.data).flatten := by
    intro l
    induction l with
    | nil => intro s; simp
    | cons a as ih =>
      intro s
      simp only [List.foldl_cons, List.map_cons, List.flatten_cons]
      rw [ih, String.data_append, List.append_assoc]
  have h := haux l ""
  simpa [String.join] using h

lemma contPartsOf_ne_empty {btw : List Token} {p : String}
    (hp : p ∈ contPartsOf btw) : p.data ≠ [] := by
  unfold contPartsOf at hp
  rw [List.mem_map] at hp
  obtain ⟨w, hw, rfl⟩ := hp
  rw [List.mem_filter] at hw
  have := hw.2
  simp only [Bool.and_eq_true, decide_eq_true_eq, reAlnum] at this
  intro hd
  rw [hd] at this
  simp at this

lemma data_ne_nil_of_ne_empty {s : String} (h : s.data ≠ []) : s ≠ "" := by
  intro he
  subst he
  exact h rfl

/-- C10 counterexample: the claim that when no account-prefix token
matched, the account field "does not begin with KZ" and equals the
fragment concatenation is false.  Concrete input: one anchor and two
continuation fragments `KZ123456789012345678` and `999` in the account
column; the core band has no prefix token, yet the output account field
*does* begin with `KZ` and, being sliced at 20 characters, differs from
the fragment concatenation. -/
theorem c10_counterexample :
    ((parseRows [⟨"123456789012", 10, 100⟩, ⟨"KZ123456789012345678", 400, 110⟩,
        ⟨"999", 400, 111⟩]).map (fun r => r.iik) = ["KZ123456789012345678"]) ∧
    (coreOf [⟨"123456789012", 10, 100⟩, ⟨"KZ123456789012345678", 400, 110⟩,
        ⟨"999", 400, 111⟩] 100).iikPre = "" ∧
    contPartsOf (betweenOf [⟨"123456789012", 10, 100⟩,
        ⟨"KZ123456789012345678", 400, 110⟩, ⟨"999", 400, 111⟩] 100 1000000000) =
      ["KZ123456789012345678", "999"] ∧
    "KZ123456789012345678".data.take 2 = ['K', 'Z'] ∧
    "KZ123456789012345678" ≠ "KZ123456789012345678" ++ "999" := by
  refine ⟨?_, ?_, ?_, ?_, ?_⟩ <;> decide

/-- C10 amended: for every anchor row with no account-prefix match in the
core band but a non-empty list of continuation fragments, the output
account field is the concatenation of those fragments truncated to at
most 20 characters — a non-empty string, which (contrary to the original
claim) begins with whatever the first fragment begins with, possibly
`KZ`. -/
theorem c10_amended (words : List Token) (iw : Token) (nt : ℚ)
    (h1 : (coreOf words iw.top).iikPre = "")
    (h2 : contPartsOf (betweenOf words iw.top nt) ≠ []) :
    (rowFor words iw nt).iik ≠ "" ∧
    (rowFor words iw nt).iik.data =
      (String.join (contPartsOf (betweenOf words iw.top nt))).data.take 20 := by
  have hiik : (rowFor words iw nt).iik =
      iikMerge (coreOf words iw.top).iikPre
        (contPartsOf (betweenOf words iw.top nt)) := rfl
  set parts := contPartsOf (betweenOf words iw.top nt) with hparts
  set cat := String.join parts with hcat
  have hraw : ((coreOf words iw.top).iikPre ++ cat).data = cat.data := by
    rw [String.data_append, h1]
    rfl
  have hlen : ((coreOf words iw.top).iikPre ++ cat).length = cat.data.length := by
    show ((coreOf words iw.top).iikPre ++ cat).data.length = cat.data.length
    rw [hraw]
  have hcatne : cat.data ≠ [] := by
    rcases hp : parts with _ | ⟨p0, prest⟩
    · exact absurd hp h2
    · rw [hcat, join_data, hp]
      simp only [List.map_cons, List.flatten_cons]
      intro hnil
      rcases List.append_eq_nil.mp hnil with ⟨hnil1, _⟩
      exact contPartsOf_ne_empty (hp ▸ List.mem_cons_self p0 prest) hnil1
  have hpos : 0 < cat.data.length := List.length_pos.mpr hcatne
  rw [hiik]
  unfold iikMerge
  by_cases hl : ((coreOf words iw.top).iikPre ++ cat).length > 20
  · rw [if_pos hl]
    constructor
    · apply data_ne_nil_of_ne_empty
      show ((coreOf words iw.top).iikPre ++ cat).data.take 20 ≠ []
      rw [hraw]
      intro hz
      have := congrArg List.length hz
      rw [List.length_take] at this
      simp only [List.length_nil] at this
      omega
    · show ((coreOf words iw.top).iikPre ++ cat).data.take 20 = cat.data.take 20
      rw [hraw]
  · rw [if_neg hl]
    rw [hlen] at hl
    constructor
    · apply data_ne_nil_of_ne_empty
      rw [hraw]
      exact hcatne
    · rw [hraw, List.take_of_length_le (by omega)]

/-- Witness for `c10_amended`: one anchor, no core-band prefix, one
continuation fragment `A2910013`. -/
theorem c10_amended_witness :
    (rowFor [⟨"123456789012", 10, 100⟩, ⟨"A2910013", 400, 110⟩]
        ⟨"123456789012", 10, 100⟩ 1000000000).iik ≠ "" ∧
    (rowFor [⟨"123456789012", 10, 100⟩, ⟨"A2910013", 400, 110⟩]
        ⟨"123456789012", 10, 100⟩ 1000000000).iik.data =
      (String.join (contPartsOf (betweenOf [⟨"123456789012", 10, 100⟩,
        ⟨"A2910013", 400, 110⟩] (⟨"123456789012", 10, 100⟩ : Token).top
        1000000000))).data.take 20 :=
  c10_amended [⟨"123456789012", 10, 100⟩, ⟨"A2910013", 400, 110⟩]
    ⟨"123456789012", 10, 100⟩ 1000000000 (by decide) (by decide)

/-! ### C1: document-scope versus page-scope dedup -/

lemma dedupAux_key_notmem :
    ∀ {rs : List Record}
      {seen : List (String × String × String × String × String × String)}
      {r : Record}, r ∈ dedupAux seen rs → recKey r ∉ seen := by
  intro rs
  induction rs with
  | nil => intro seen r h; simp [dedupAux] at h
  | cons a as ih =>
    intro seen r h
    unfold dedupAux at h
    by_cases hk : recKey a ∈ seen
    · rw [if_pos hk] at h
      exact ih h
    · rw [if_neg hk] at h
      rcases List.mem_cons.mp h with h1 | h2
      · rw [h1]
        exact hk
      · have := ih h2
        intro hc
        exact this (List.mem_cons_of_mem _ hc)

lemma dedupAux_nodup :
    ∀ (rs : List Record)
      (seen : List (String × String × String × String × String × String)),
      (dedupAux seen rs).Nodup := by
  intro rs
  induction rs with
  | nil => intro seen; simp [dedupAux]
  | cons a as ih =>
    intro seen
    unfold dedupAux
    by_cases hk : recKey a ∈ seen
    · rw [if_pos hk]
      exact ih seen
    · rw [if_neg hk]
      refine List.nodup_cons.mpr ⟨?_, ih _⟩
      intro hmem
      have := dedupAux_key_notmem hmem
      exact this (List.mem_cons_self _ _)

/-- C1 counterexample: dedup is *not* document-scoped.  A two-page
document whose pages carry the same anchor token parses to two identical
records: `parser.py:129-136` dedups per page and `parse_report_pdf`
merely concatenates the per-page lists. -/
theorem c1_counterexample :
    (parseReportPdf [⟨"", [⟨"123456789012", 10, 100⟩]⟩,
        ⟨"", [⟨"123456789012", 10, 100⟩]⟩]).rows =
      [⟨"123456789012", "123456789012", "", "", "", ""⟩,
       ⟨"123456789012", "123456789012", "", "", "", ""⟩] ∧
    ¬ (parseReportPdf [⟨"", [⟨"123456789012", 10, 100⟩]⟩,
        ⟨"", [⟨"123456789012", 10, 100⟩]⟩]).rows.Nodup := by
  constructor
  · decide
  · decide

/-- C1 amended: dedup is page-scoped.  The records produced from any one
page are pairwise distinct in the full six-field tuple, and a Document's
`rows` is the mere concatenation of the per-page outputs, so duplicates
of the same row on different pages survive into the Document. -/
theorem c1_amended :
    (∀ words : List Token, (parseRows words).Nodup) ∧
    (∀ pages : List Page, (parseReportPdf pages).rows =
      (pages.map (fun p => parseRows p.words)).flatten) :=
  ⟨fun _ => dedupAux_nodup _ _, fun _ => rfl⟩

/-! ### C7: graceful degradation on empty input -/

lemma scanFor_eq_none {α : Type} (f : List Char → Option α) :
    ∀ (cs : List Char), (∀ s, s <:+ cs → f s = none) → scanFor f cs = none := by
  intro cs
  induction cs with
  | nil => intro h; exact h [] (List.suffix_refl _)
  | cons c cs ih =>
    intro h
    unfold scanFor
    rw [h (c :: cs) (List.suffix_refl _)]
    simp only [Option.none_orElse]
    exact ih (fun s hs => h s (hs.trans (List.suffix_cons c cs)))

lemma litPre_some_of :
    ∀ {p cs r : List Char}, litPre p cs = some r → p <+: cs := by
  intro p
  induction p with
  | nil => intro cs r _; exact List.nil_prefix
  | cons a ps ih =>
    intro cs r h
    cases cs with
    | nil => simp [litPre] at h
    | cons c cs' =>
      unfold litPre at h
      by_cases hac : (a == c) = true
      · rw [if_pos hac] at h
        rw [List.cons_prefix_cons]
        exact ⟨eq_of_beq hac, ih h⟩
      · rw [if_neg hac] at h
        simp at h

lemma tryRegion_none {cs : List Char} (h : ¬ ("Регион:".data <+: cs)) :
    tryRegion cs = none := by
  unfold tryRegion
  rcases hl : litPre "Регион:".data cs with _ | r
  · rfl
  · exact absurd (litPre_some_of hl) h

lemma tryReportDate_none {cs : List Char}
    (h : ¬ ("Отчет произведен:".data <+: cs)) : tryReportDate cs = none := by
  unfold tryReportDate
  rcases hl : litPre "Отчет произведен:".data cs with _ | r
  · rfl
  · exact absurd (litPre_some_of hl) h

lemma tryPeriod_none {cs : List Char} (h : ¬ ("Период:".data <+: cs)) :
    tryPeriod cs = none := by
  unfold tryPeriod
  rcases hl : litPre "Период:".data cs with _ | r
  · rfl
  · exact absurd (litPre_some_of hl) h

lemma scanFor_label_none {α : Type} {f : List Char → Option α}
    {label cs : List Char}
    (hf : ∀ s, ¬ (label <+: s) → f s = none)
    (h : ¬ (label <:+: cs)) : scanFor f cs = none := by
  apply scanFor_eq_none
  intro s hs
  apply hf
  intro hp
  exact h (List.infix_iff_prefix_suffix.mpr ⟨s, hp, hs⟩)

/-- C7 confirmed: with no 12-digit anchor token on any page, parsing
yields zero records, and each metadata field whose label is absent from
the cleaned document text is the empty string; the embedding is a total
function, so no exception is possible. -/
theorem c7_confirmed (pages : List Page) :
    ((∀ p ∈ pages, ∀ w ∈ p.words, reIin w.text = false) →
      (parseReportPdf pages).rows = []) ∧
    (¬ ("Регион:".data <:+: (fullTextOf pages).data) →
      (parseReportPdf pages).region = "") ∧
    (¬ ("Отчет произведен:".data <:+: (fullTextOf pages).data) →
      (parseReportPdf pages).report_date = "") ∧
    (¬ ("Период:".data <:+: (fullTextOf pages).data) →
      (parseReportPdf pages).period = "") := by
  refine ⟨?_, ?_, ?_, ?_⟩
  · intro hno
    show (pages.map (fun p => parseRows p.words)).flatten = []
    rw [List.flatten_eq_nil_iff]
    intro l hl
    rw [List.mem_map] at hl
    obtain ⟨p, hp, rfl⟩ := hl
    unfold parseRows
    have hfil : p.words.filter (fun w => reIin w.text) = [] :=
      List.filter_eq_nil_iff.mpr (fun w hw => by rw [hno p hp w hw]; simp)
    have hanch : anchorsOf p.words = [] := by
      unfold anchorsOf
      rw [hfil]
      rfl
    rw [hanch]
    rfl
  · intro h
    show (match scanFor tryRegion (fullTextOf pages).data with
      | some g => pyStrip ⟨g⟩
      | none => "") = ""
    rw [scanFor_label_none (fun s hs => tryRegion_none hs) h]
  · intro h
    show (match scanFor tryReportDate (fullTextOf pages).data with
      | some g => pyStrip ⟨g⟩
      | none => "") = ""
    rw [scanFor_label_none (fun s hs => tryReportDate_none hs) h]
  · intro h
    show (match scanFor tryPeriod (fullTextOf pages).data with
      | some g => pyStrip ⟨g⟩
      | none => "") = ""
    rw [scanFor_label_none (fun s hs => tryPeriod_none hs) h]

/-- Witness for `c7_confirmed` on a one-page document with a single
non-anchor token and no metadata labels. -/
theorem c7_witness :
    (parseReportPdf [⟨"x", [⟨"abc", 0, 0⟩]⟩]).rows = [] ∧
    (parseReportPdf [⟨"x", [⟨"abc", 0, 0⟩]⟩]).region = "" ∧
    (parseReportPdf [⟨"x", [⟨"abc", 0, 0⟩]⟩]).report_date = "" ∧
    (parseReportPdf [⟨"x", [⟨"abc", 0, 0⟩]⟩]).period = "" := by
  have h := c7_confirmed [⟨"x", [⟨"abc", 0, 0⟩]⟩]
  exact ⟨h.1 (by decide), h.2.1 (by decide), h.2.2.1 (by decide),
    h.2.2.2 (by decide)⟩

/-! ### C2: global aggregation dedup -/

lemma emitRowsA_spec (period region rdate : String) :
    ∀ (rs : List Record) (seen : List Key9),
      ((emitRowsA period region rdate rs seen).1.filterMap Prod.fst).Nodup ∧
      (∀ k ∈ (emitRowsA period region rdate rs seen).1.filterMap Prod.fst,
        k ∉ seen) ∧
      (∀ k, k ∈ (emitRowsA period region rdate rs seen).2 ↔
        k ∈ seen ∨ k ∈ (emitRowsA period region rdate rs seen).1.filterMap
          Prod.fst) := by
  intro rs
  induction rs with
  | nil =>
    intro seen
    refine ⟨List.nodup_nil, ?_, ?_⟩
    · intro k hk
      simp [emitRowsA] at hk
    · intro k
      simp [emitRowsA]
  | cons r rs ih =>
    intro seen
    unfold emitRowsA
    by_cases hk : key9 period region rdate r ∈ seen
    · rw [if_pos hk]
      exact ih seen
    · rw [if_neg hk]
      obtain ⟨ih1, ih2, ih3⟩ := ih (key9 period region rdate r :: seen)
      simp only [List.filterMap_cons]
      refine ⟨?_, ?_, ?_⟩
      · refine List.nodup_cons.mpr ⟨?_, ih1⟩
        intro hmem
        exact (ih2 _ hmem) (List.mem_cons_self _ _)
      · intro k hkm
        rcases List.mem_cons.mp hkm with h1 | h2
        · rw [h1]; exact hk
        · intro hks
          exact (ih2 k h2) (List.mem_cons_of_mem _ hks)
      · intro k
        rw [ih3 k, List.mem_cons, List.mem_cons]
        tauto

lemma emitFilesA_spec :
    ∀ (pfs : List PFile) (seen : List Key9),
      ((emitFilesA pfs seen).filterMap Prod.fst).Nodup ∧
      (∀ k ∈ (emitFilesA pfs seen).filterMap Prod.fst, k ∉ seen) := by
  intro pfs
  induction pfs with
  | nil =>
    intro seen
    constructor
    · simp [emitFilesA]
    · intro k hk
      simp [emitFilesA] at hk
  | cons pf pfs ih =>
    intro seen
    unfold emitFilesA
    obtain ⟨e1, e2, e3⟩ := emitRowsA_spec pf.period pf.region pf.report_date
      pf.rows seen
    obtain ⟨f1, f2⟩ := ih (emitRowsA pf.period pf.region pf.report_date
      pf.rows seen).2
    simp only [List.filterMap_cons, List.filterMap_append]
    constructor
    · rw [List.nodup_append]
      refine ⟨e1, f1, ?_⟩
      intro k hk1 hk2
      have := f2 k hk2
      exact this ((e3 k).mpr (Or.inr hk1))
    · intro k hk
      rcases List.mem_append.mp hk with h1 | h2
      · exact e2 k h1
      · intro hks
        exact (f2 k h2) ((e3 k).mpr (Or.inl hks))

/-- C2 confirmed: in any successful aggregation pass of `page_report`, the
dedup keys attached to the emitted data lines are pairwise distinct — the
`seen` set lives outside the per-document loop (`main.py:159`), so the
9-tuple key (period, region, report_date, pay_no, iin_bin, bank_code,
iik, kbk, amount_in) is deduplicated globally across the whole run. -/
theorem c2_confirmed (docs : List Document)
    (prs : List (Option Key9 × Line)) (h : aggPairs docs = some prs) :
    (prs.filterMap Prod.fst).Nodup := by
  unfold aggPairs at h
  rcases hm : docs.mapM toPFile with _ | pfs
  · rw [hm] at h
    simp at h
  · rw [hm] at h
    have h2 : some (emitFilesA (List.insertionSort
        (fun a b => a.period_start ≤ b.period_start) pfs) []) = some prs := h
    have h3 := Option.some.inj h2
    rw [← h3]
    exact (emitFilesA_spec _ []).1

/-- Witness for `c2_confirmed`: two identical documents; the second copy
of the row is dropped and the remaining keys are distinct. -/
theorem c2_witness :
    (([(none, Line.period "01.01.2023 - 31.01.2023"),
       (some ("01.01.2023 - 31.01.2023", "r", "d", "1", "2", "3", "4", "5", "6"),
         Line.data "2" "3" "4" "5" "6"),
       (none, Line.period "01.01.2023 - 31.01.2023")] :
      List (Option Key9 × Line)).filterMap Prod.fst).Nodup :=
  c2_confirmed
    [⟨"r", "d", "01.01.2023 - 31.01.2023", [⟨"1", "2", "3", "4", "5", "6"⟩]⟩,
     ⟨"r", "d", "01.01.2023 - 31.01.2023", [⟨"1", "2", "3", "4", "5", "6"⟩]⟩]
    _ (by rfl)

/-! ### C3: chronological ordering of period headers -/

/-- The period of a header line, `none` for data lines. -/
def headPeriod : Line → Option String
  | Line.period p => some p
  | Line.data _ _ _ _ _ => none

/-- The sort key a period string determines (the encoded `_period_start`
value; `0` only in the unreachable exception case). -/
def startKey (p : String) : ℕ := (periodStart p).getD 0

lemma emitRowsA_no_headers (period region rdate : String) :
    ∀ (rs : List Record) (seen : List Key9),
      ((emitRowsA period region rdate rs seen).1.map Prod.snd).filterMap
        headPeriod = [] := by
  intro rs
  induction rs with
  | nil => intro seen; simp [emitRowsA]
  | cons r rs ih =>
    intro seen
    unfold emitRowsA
    by_cases hk : key9 period region rdate r ∈ seen
    · rw [if_pos hk]
      exact ih seen
    · rw [if_neg hk]
      simp only [List.map_cons, List.filterMap_cons]
      exact ih _

lemma emitFilesA_headers :
    ∀ (pfs : List PFile) (seen : List Key9),
      ((emitFilesA pfs seen).map Prod.snd).filterMap headPeriod =
        pfs.map (fun pf => pf.period) := by
  intro pfs
  induction pfs with
  | nil => intro seen; simp [emitFilesA]
  | cons pf pfs ih =>
    intro seen
    unfold emitFilesA
    simp only [List.map_cons, List.map_append, List.filterMap_cons,
      List.filterMap_append]
    rw [emitRowsA_no_headers, ih]
    rfl

lemma scanFor_some {α : Type} (f : List Char → Option α) :
    ∀ {cs : List Char} {v : α}, scanFor f cs = some v →
      ∃ s, s <:+ cs ∧ f s = some v := by
  intro cs
  induction cs with
  | nil => intro v h; exact ⟨[], List.suffix_refl _, h⟩
  | cons c cs ih =>
    intro v h
    unfold scanFor at h
    rcases hf : f (c :: cs) with _ | w
    · rw [hf] at h
      simp only [Option.none_orElse] at h
      obtain ⟨s, hs, hfs⟩ := ih h
      exact ⟨s, hs.trans (List.suffix_cons c cs), hfs⟩
    · rw [hf] at h
      simp only [Option.some_orElse] at h
      exact ⟨c :: cs, List.suffix_refl _, hf ▸ h⟩

lemma takeDigits_spec :
    ∀ {n : ℕ} {cs ds r : List Char}, takeDigits n cs = some (ds, r) →
      ds.length = n ∧ ds.all isDig = true := by
  intro n
  induction n with
  | zero =>
    intro cs ds r h
    unfold takeDigits at h
    simp only [Option.some.injEq, Prod.mk.injEq] at h
    rw [← h.1]
    exact ⟨rfl, rfl⟩
  | succ n ih =>
    intro cs ds r h
    cases cs with
    | nil => simp [takeDigits] at h
    | cons c cs' =>
      unfold takeDigits at h
      by_cases hd : isDig c = true
      · rw [if_pos hd] at h
        rcases hq : takeDigits n cs' with _ | ⟨ds', r'⟩
        · rw [hq] at h; simp at h
        · rw [hq] at h
          have h' : some (c :: ds', r') = some (ds, r) := h
          have hds : c :: ds' = ds := congrArg Prod.fst (Option.some.inj h')
          obtain ⟨ih1, ih2⟩ := ih hq
          rw [← hds]
          refine ⟨by simp [ih1], ?_⟩
          simp only [List.all_cons, Bool.and_eq_true]
          exact ⟨hd, ih2⟩
      · rw [if_neg hd] at h
        simp at h

lemma digitsToNat_lt {cs : List Char} (h : cs.all isDig = true) :
    digitsToNat cs < 10 ^ cs.length := by
  have haux : ∀ (l : List Char) (a : ℕ), l.all isDig = true →
      l.foldl (fun x c => x * 10 + (c.toNat - 48)) a < (a + 1) * 10 ^ l.length := by
    intro l
    induction l with
    | nil =>
      intro a _
      simp only [List.foldl_nil, List.length_nil, pow_zero, mul_one]
      omega
    | cons c l ih =>
      intro a hall
      simp only [List.all_cons, Bool.and_eq_true] at hall
      have hc := isDig_bounds hall.1
      have hstep := ih (a * 10 + (c.toNat - 48)) hall.2
      simp only [List.foldl_cons, List.length_cons]
      calc l.foldl (fun x c => x * 10 + (c.toNat - 48)) (a * 10 + (c.toNat - 48))
          < (a * 10 + (c.toNat - 48) + 1) * 10 ^ l.length := hstep
        _ ≤ ((a + 1) * 10) * 10 ^ l.length := by
            have : a * 10 + (c.toNat - 48) + 1 ≤ (a + 1) * 10 := by omega
            exact Nat.mul_le_mul_right _ this
        _ = (a + 1) * 10 ^ (l.length + 1) := by ring
  have := haux cs 0 h
  simpa using this

lemma tryRangeStart_year_le {cs : List Char} {d m y : ℕ}
    (h : tryRangeStart cs = some (d, m, y)) : y ≤ 9999 ∧ m ≤ 99 ∧ d ≤ 99 := by
  unfold tryRangeStart at h
  simp only [Option.bind_eq_bind, Option.bind_eq_some, Option.pure_def,
    Option.some.injEq, Prod.mk.injEq] at h
  obtain ⟨⟨cd, r2⟩, h1, r3, _, ⟨cm, r4⟩, h2, r5, _, ⟨cy, r6⟩, h3, r7, _,
    ⟨c2, r9⟩, _, r10, _, ⟨c3, r11⟩, _, r12, _, ⟨c4, r13⟩, _, hfin⟩ := h
  obtain ⟨hd, hm, hy⟩ := hfin
  dsimp only at hd hm hy
  obtain ⟨hl1, ha1⟩ := takeDigits_spec h1
  obtain ⟨hl2, ha2⟩ := takeDigits_spec h2
  obtain ⟨hl3, ha3⟩ := takeDigits_spec h3
  have b1 := digitsToNat_lt ha1
  have b2 := digitsToNat_lt ha2
  have b3 := digitsToNat_lt ha3
  rw [hl1] at b1
  rw [hl2] at b2
  rw [hl3] at b3
  norm_num at b1 b2 b3
  omega

lemma daysInMonth_le (y m : ℕ) : daysInMonth y m ≤ 31 := by
  unfold daysInMonth
  split
  · split <;> omega
  · split <;> omega

lemma periodStart_le_dtMax {s : String} {v : ℕ} (h : periodStart s = some v) :
    v ≤ dtMax := by
  unfold periodStart at h
  rcases hs : scanFor tryRangeStart s.data with _ | ⟨d, m, y⟩
  · rw [hs] at h
    have h' : some dtMax = some v := h
    rw [← Option.some.inj h']
  · rw [hs] at h
    have h' : strptimeDMY d m y = some v := h
    unfold strptimeDMY at h'
    split at h'
    · rename_i hvalid
      have hv := Option.some.inj h'
      obtain ⟨sfx, _, hsfx⟩ := scanFor_some _ hs
      obtain ⟨hy, hm, hd⟩ := tryRangeStart_year_le hsfx
      have hdm := daysInMonth_le y m
      rw [← hv]
      unfold encodeDT dtMax
      have hm12 : m ≤ 12 := hvalid.2.2.1
      have hd31 : d ≤ daysInMonth y m := hvalid.2.2.2.2
      omega
    · simp at h' 

lemma toPFile_periodStart {d : Document} {pf : PFile}
    (h : toPFile d = some pf) : periodStart pf.period = some pf.period_start := by
  unfold toPFile at h
  rcases hp : periodStart (pyStrip d.period) with _ | ps
  · rw [hp] at h
    simp at h
  · rw [hp] at h
    have h2 : some (PFile.mk (pyStrip d.period) ps (pyStrip d.region)
        (pyStrip d.report_date) d.rows) = some pf := h
    rw [← Option.some.inj h2]
    exact hp

lemma mapM_toPFile_mem :
    ∀ {docs : List Document} {pfs : List PFile},
      docs.mapM toPFile = some pfs →
      ∀ pf ∈ pfs, ∃ d, toPFile d = some pf := by
  intro docs
  induction docs with
  | nil =>
    intro pfs h pf hpf
    simp only [List.mapM_nil, Option.pure_def, Option.some.injEq] at h
    rw [← h] at hpf
    simp at hpf
  | cons d ds ih =>
    intro pfs h pf hpf
    rw [List.mapM_cons] at h
    simp only [Option.bind_eq_bind, Option.bind_eq_some, Option.pure_def,
      Option.some.injEq] at h
    obtain ⟨p0, hp0, ps, hps, hcons⟩ := h
    rw [← hcons] at hpf
    rcases List.mem_cons.mp hpf with h1 | h2
    · exact ⟨d, h1 ▸ hp0⟩
    · exact ih hps pf h2

/-- C3 confirmed: in any successfully rendered aggregated report, the
period headers appear with non-decreasing period-start keys, and every
header whose period string has no `DD.MM.YYYY - DD.MM.YYYY` match (sort
key `datetime.max`) comes after all headers with parsable periods:
once a header's key is the sentinel, every later header's key is the
sentinel too. -/
theorem c3_confirmed (docs : List Document) (lines : List Line)
    (h : pageReportLines docs = some lines) :
    (lines.filterMap headPeriod).Pairwise
      (fun p q => startKey p ≤ startKey q ∧
        (startKey p = dtMax → startKey q = dtMax)) := by
  unfold pageReportLines aggPairs at h
  rcases hm : docs.mapM toPFile with _ | pfs
  · rw [hm] at h
    simp at h
  · rw [hm] at h
    have h2 : some ((emitFilesA (List.insertionSort
        (fun a b => a.period_start ≤ b.period_start) pfs) []).map Prod.snd) =
        some lines := h
    rw [← Option.some.inj h2, emitFilesA_headers, List.pairwise_map]
    haveI : IsTotal PFile (fun a b => a.period_start ≤ b.period_start) :=
      ⟨fun a b => Nat.le_total a.period_start b.period_start⟩
    haveI : IsTrans PFile (fun a b => a.period_start ≤ b.period_start) :=
      ⟨fun _ _ _ => Nat.le_trans⟩
    have hsorted := List.sorted_insertionSort
      (fun (a b : PFile) => a.period_start ≤ b.period_start) pfs
    have hperm := List.perm_insertionSort
      (fun (a b : PFile) => a.period_start ≤ b.period_start) pfs
    refine hsorted.imp_of_mem ?_
    intro a b ha hb hle
    have hka : periodStart a.period = some a.period_start := by
      obtain ⟨da, hda⟩ := mapM_toPFile_mem hm a (hperm.mem_iff.mp ha)
      exact toPFile_periodStart hda
    have hkb : periodStart b.period = some b.period_start := by
      obtain ⟨db, hdb⟩ := mapM_toPFile_mem hm b (hperm.mem_iff.mp hb)
      exact toPFile_periodStart hdb
    have hsa : startKey a.period = a.period_start := by
      unfold startKey
      rw [hka]
      rfl
    have hsb : startKey b.period = b.period_start := by
      unfold startKey
      rw [hkb]
      rfl
    rw [hsa, hsb]
    refine ⟨hle, ?_⟩
    intro hmax
    have := periodStart_le_dtMax hkb
    omega

/-- Witness for `c3_confirmed`: two documents supplied in reverse
chronological order come out January before February. -/
theorem c3_witness :
    (([Line.period "01.01.2023 - 31.01.2023",
       Line.period "01.02.2023 - 28.02.2023"].filterMap headPeriod).Pairwise
      (fun p q => startKey p ≤ startKey q ∧
        (startKey p = dtMax → startKey q = dtMax))) :=
  c3_confirmed
    [⟨"r", "d", "01.02.2023 - 28.02.2023", []⟩,
     ⟨"r", "d", "01.01.2023 - 31.01.2023", []⟩]
    _ (by rfl)

/-! ### C4: analytics sort order -/

lemma clLt_cons_lt {a b : Char} {xs ys : List Char} (h : a.toNat < b.toNat) :
    clLt (a :: xs) (b :: ys) = true := by
  show (if a.toNat < b.toNat then true
    else if b.toNat < a.toNat then false else clLt xs ys) = true
  rw [if_pos h]

lemma clLt_cons_gt {a b : Char} {xs ys : List Char} (h : b.toNat < a.toNat) :
    clLt (a :: xs) (b :: ys) = false := by
  show (if a.toNat < b.toNat then true
    else if b.toNat < a.toNat then false else clLt xs ys) = false
  rw [if_neg (by omega), if_pos h]

lemma clLt_cons_eq {a b : Char} {xs ys : List Char} (h : a.toNat = b.toNat) :
    clLt (a :: xs) (b :: ys) = clLt xs ys := by
  show (if a.toNat < b.toNat then true
    else if b.toNat < a.toNat then false else clLt xs ys) = clLt xs ys
  rw [if_neg (by omega), if_neg (by omega)]

lemma clLt_irrefl : ∀ l : List Char, clLt l l = false := by
  intro l
  induction l with
  | nil => rfl
  | cons c cs ih =>
    rw [clLt_cons_eq rfl]
    exact ih

lemma clLt_asymm : ∀ {a b : List Char}, clLt a b = true → clLt b a = false := by
  intro a
  induction a with
  | nil =>
    intro b h
    cases b with
    | nil => simp [clLt] at h
    | cons c cs => rfl
  | cons x xs ih =>
    intro b h
    cases b with
    | nil => simp [clLt] at h
    | cons y ys =>
      rcases Nat.lt_trichotomy x.toNat y.toNat with hlt | heq | hgt
      · exact clLt_cons_gt hlt
      · rw [clLt_cons_eq heq] at h
        rw [clLt_cons_eq heq.symm]
        exact ih h
      · rw [clLt_cons_gt hgt] at h
        exact absurd h (by simp)

lemma clLt_trans : ∀ {a b c : List Char},
    clLt a b = true → clLt b c = true → clLt a c = true := by
  intro a
  induction a with
  | nil =>
    intro b c hab hbc
    cases c with
    | nil =>
      cases b with
      | nil => exact hab
      | cons y ys => simp [clLt] at hbc
    | cons z zs => rfl
  | cons x xs ih =>
    intro b c hab hbc
    cases b with
    | nil => simp [clLt] at hab
    | cons y ys =>
      cases c with
      | nil => simp [clLt] at hbc
      | cons z zs =>
        rcases Nat.lt_trichotomy x.toNat y.toNat with h1 | h1 | h1
        · rcases Nat.lt_trichotomy y.toNat z.toNat with h2 | h2 | h2
          · exact clLt_cons_lt (by omega)
          · exact clLt_cons_lt (by omega)
          · rw [clLt_cons_gt h2] at hbc
            exact absurd hbc (by simp)
        · rcases Nat.lt_trichotomy y.toNat z.toNat with h2 | h2 | h2
          · exact clLt_cons_lt (by omega)
          · rw [clLt_cons_eq (by omega)]
            rw [clLt_cons_eq h1] at hab
            rw [clLt_cons_eq h2] at hbc
            exact ih hab hbc
          · rw [clLt_cons_gt h2] at hbc
            exact absurd hbc (by simp)
        · rw [clLt_cons_gt h1] at hab
          exact absurd hab (by simp)

lemma clLt_conn : ∀ {a b : List Char},
    clLt a b = false → clLt b a = false → a = b := by
  intro a
  induction a with
  | nil =>
    intro b hab _
    cases b with
    | nil => rfl
    | cons y ys => simp [clLt] at hab
  | cons x xs ih =>
    intro b hab hba
    cases b with
    | nil => simp [clLt] at hba
    | cons y ys =>
      rcases Nat.lt_trichotomy x.toNat y.toNat with h1 | h1 | h1
      · rw [clLt_cons_lt h1] at hab
        exact absurd hab (by simp)
      · have hxy : x = y := Char.ext (UInt32.ext h1)
        rw [clLt_cons_eq h1] at hab
        rw [clLt_cons_eq h1.symm] at hba
        rw [hxy, ih hab hba]
      · rw [clLt_cons_lt h1] at hba
        exact absurd hba (by simp)

lemma pyStrLe_refl (a : String) : pyStrLe a a = true := by
  unfold pyStrLe
  rw [clLt_irrefl]
  rfl

lemma pyStrLe_total (a b : String) : (pyStrLe a b || pyStrLe b a) = true := by
  unfold pyStrLe
  by_cases h : clLt b.data a.data = true
  · rw [clLt_asymm h]
    simp
  · simp only [Bool.not_eq_true] at h
    rw [h]
    simp

lemma pyStrLe_trans {a b c : String} (hab : pyStrLe a b = true)
    (hbc : pyStrLe b c = true) : pyStrLe a c = true := by
  unfold pyStrLe at hab hbc ⊢
  simp only [Bool.not_eq_true'] at hab hbc ⊢
  by_contra hac
  simp only [Bool.not_eq_false] at hac
  rcases hcb2 : clLt b.data c.data with _ | _
  · have heq := clLt_conn hcb2 hbc
    rw [← heq] at hac
    rw [hac] at hab
    exact absurd hab (by simp)
  · have := clLt_trans hcb2 hac
    rw [this] at hab
    exact absurd hab (by simp)

lemma digChar_toNat (k : ℕ) : (digChar k).toNat = 48 + k % 10 := by
  unfold digChar
  have h : k % 10 < 10 := Nat.mod_lt _ (by norm_num)
  interval_cases h2 : k % 10 <;> rfl

lemma isoMax_data :
    isoMax.data = ['9', '9', '9', '9', '-', '1', '2', '-', '3', '1', 'T', '2',
      '3', ':', '5', '9', ':', '5', '9', '.', '9', '9', '9', '9', '9', '9'] := rfl

lemma isoOf_encode_lt {y m d : ℕ} (hm1 : 1 ≤ m) (hm : m ≤ 12)
    (hd1 : 1 ≤ d) (hd : d ≤ 31) :
    clLt (isoOf (encodeDT y m d)).data isoMax.data = true := by
  have hne : encodeDT y m d ≠ dtMax := by
    unfold encodeDT dtMax
    omega
  unfold isoOf
  rw [if_neg hne]
  have e2 : encodeDT y m d / 2 = y * 10000 + m * 100 + d := by
    unfold encodeDT
    omega
  rw [e2]
  have hA : (y * 10000 + m * 100 + d) / 10000 = y := by omega
  have hB : (y * 10000 + m * 100 + d) / 100 % 100 = m := by omega
  have hC : (y * 10000 + m * 100 + d) % 100 = d := by omega
  rw [hA, hB, hC, isoMax_data]
  show clLt (digChar (y / 1000) :: digChar (y / 100) :: digChar (y / 10) ::
    digChar y :: '-' :: digChar (m / 10) :: digChar m :: '-' ::
    digChar (d / 10) :: digChar d :: 'T' :: '0' :: '0' :: ':' :: '0' :: '0' ::
    ':' :: '0' :: '0' :: []) _ = true
  have h9 : ('9' : Char).toNat = 57 := rfl
  have hDash : ('-' : Char).toNat = 45 := rfl
  have hT : ('T' : Char).toNat = 84 := rfl
  have d0 := digChar_toNat (y / 1000)
  have d1 := digChar_toNat (y / 100)
  have d2 := digChar_toNat (y / 10)
  have d3 := digChar_toNat y
  have d4 := digChar_toNat (m / 10)
  have d5 := digChar_toNat m
  have d6 := digChar_toNat (d / 10)
  have d7 := digChar_toNat d
  by_cases c0 : y / 1000 % 10 = 9
  case neg =>
    exact clLt_cons_lt (by rw [d0, h9]; omega)
  rw [clLt_cons_eq (by rw [d0, h9]; omega)]
  by_cases c1 : y / 100 % 10 = 9
  case neg =>
    exact clLt_cons_lt (by rw [d1, h9]; omega)
  rw [clLt_cons_eq (by rw [d1, h9]; omega)]
  by_cases c2 : y / 10 % 10 = 9
  case neg =>
    exact clLt_cons_lt (by rw [d2, h9]; omega)
  rw [clLt_cons_eq (by rw [d2, h9]; omega)]
  by_cases c3 : y % 10 = 9
  case neg =>
    exact clLt_cons_lt (by rw [d3, h9]; omega)
  rw [clLt_cons_eq (by rw [d3, h9]; omega)]
  rw [clLt_cons_eq rfl]
  by_cases c4 : m / 10 % 10 = 1
  case neg =>
    refine clLt_cons_lt ?_
    rw [d4]
    show 48 + m / 10 % 10 < 49
    omega
  rw [clLt_cons_eq (by rw [d4]; show 48 + m / 10 % 10 = 49; omega)]
  by_cases c5 : m % 10 = 2
  case neg =>
    refine clLt_cons_lt ?_
    rw [d5]
    show 48 + m % 10 < 50
    omega
  rw [clLt_cons_eq (by rw [d5]; show 48 + m % 10 = 50; omega)]
  rw [clLt_cons_eq rfl]
  by_cases c6 : d / 10 % 10 = 3
  case neg =>
    refine clLt_cons_lt ?_
    rw [d6]
    show 48 + d / 10 % 10 < 51
    omega
  rw [clLt_cons_eq (by rw [d6]; show 48 + d / 10 % 10 = 51; omega)]
  by_cases c7 : d % 10 = 1
  case neg =>
    refine clLt_cons_lt ?_
    rw [d7]
    show 48 + d % 10 < 49
    omega
  rw [clLt_cons_eq (by rw [d7]; show 48 + d % 10 = 49; omega)]
  rw [clLt_cons_eq rfl]
  exact clLt_cons_lt (by decide)

lemma periodStart_form {s : String} {v : ℕ} (h : periodStart s = some v) :
    v = dtMax ∨ ∃ y m d, 1 ≤ m ∧ m ≤ 12 ∧ 1 ≤ d ∧ d ≤ 31 ∧
      v = encodeDT y m d := by
  unfold periodStart at h
  rcases hs : scanFor tryRangeStart s.data with _ | ⟨d, m, y⟩
  · rw [hs] at h
    have h' : some dtMax = some v := h
    exact Or.inl (Option.some.inj h').symm
  · rw [hs] at h
    have h' : strptimeDMY d m y = some v := h
    unfold strptimeDMY at h'
    split at h'
    · rename_i hvalid
      refine Or.inr ⟨y, m, d, hvalid.2.1, hvalid.2.2.1, hvalid.2.2.2.1, ?_,
        (Option.some.inj h').symm⟩
      exact le_trans hvalid.2.2.2.2 (daysInMonth_le y m)
    · simp at h'

lemma toFEntry_ps {d : Document} {fe : FEntry} (h : toFEntry d = some fe) :
    fe.period_start = "" ∨ fe.period_start = isoMax ∨
      ∃ y m dd, 1 ≤ m ∧ m ≤ 12 ∧ 1 ≤ dd ∧ dd ≤ 31 ∧
        fe.period_start = isoOf (encodeDT y m dd) := by
  unfold toFEntry at h
  by_cases hp : pyStrip d.period = ""
  · rw [if_pos hp] at h
    rcases hrws : d.rows.mapM (fun r =>
        (amountNumeric r.amount_in).map fun q =>
          CRow.mk r.iin_bin r.bank_code r.iik r.kbk r.amount_in q) with _ | rws
    · rw [hrws] at h
      have h2 : (none : Option FEntry) = some fe := h
      simp at h2
    · rw [hrws] at h
      have h2 : some (FEntry.mk (pyStrip d.period) "" (pyStrip d.region)
          (pyStrip d.report_date) rws) = some fe := h
      rw [← Option.some.inj h2]
      exact Or.inl rfl
  · rw [if_neg hp] at h
    rcases hps : periodStart (pyStrip d.period) with _ | e
    · rw [hps] at h
      have h2 : (none : Option FEntry) = some fe := h
      simp at h2
    · rw [hps] at h
      rcases hrws : d.rows.mapM (fun r =>
          (amountNumeric r.amount_in).map fun q =>
            CRow.mk r.iin_bin r.bank_code r.iik r.kbk r.amount_in q) with _ | rws
      · rw [hrws] at h
        have h2 : (none : Option FEntry) = some fe := h
        simp at h2
      · rw [hrws] at h
        have h2 : some (FEntry.mk (pyStrip d.period) (isoOf e)
            (pyStrip d.region) (pyStrip d.report_date) rws) = some fe := h
        rw [← Option.some.inj h2]
        rcases periodStart_form hps with hmax | ⟨y, m, dd, b1, b2, b3, b4, he⟩
        · refine Or.inr (Or.inl ?_)
          show isoOf e = isoMax
          rw [hmax]
          unfold isoOf
          rw [if_pos rfl]
        · exact Or.inr (Or.inr ⟨y, m, dd, b1, b2, b3, b4, by rw [he]⟩)

lemma clLt_nil_eq_false {l : List Char} (h : clLt [] l = false) : l = [] := by
  cases l with
  | nil => rfl
  | cons c cs => simp [clLt] at h

lemma fe_ps_not_above_isoMax {d : Document} {fe : FEntry}
    (h : toFEntry d = some fe) :
    clLt isoMax.data fe.period_start.data = false := by
  rcases toFEntry_ps h with h1 | h1 | ⟨y, m, dd, b1, b2, b3, b4, h1⟩
  · rw [h1]
    rfl
  · rw [h1]
    exact clLt_irrefl _
  · rw [h1]
    exact clLt_asymm (isoOf_encode_lt b1 b2 b3 b4)

lemma fe_ps_isoMax_of_ge {d : Document} {fe : FEntry}
    (h : toFEntry d = some fe)
    (hge : clLt fe.period_start.data isoMax.data = false) :
    fe.period_start = isoMax := by
  rcases toFEntry_ps h with h1 | h1 | ⟨y, m, dd, b1, b2, b3, b4, h1⟩
  · rw [h1] at hge
    have : clLt ([] : List Char) isoMax.data = true := rfl
    rw [show ("" : String).data = ([] : List Char) from rfl] at hge
    rw [this] at hge
    exact absurd hge (by simp)
  · exact h1
  · rw [h1] at hge
    rw [isoOf_encode_lt b1 b2 b3 b4] at hge
    exact absurd hge (by simp)

lemma mapM_toFEntry_mem :
    ∀ {docs : List Document} {fs : List FEntry},
      docs.mapM toFEntry = some fs →
      ∀ fe ∈ fs, ∃ d, toFEntry d = some fe := by
  intro docs
  induction docs with
  | nil =>
    intro fs h fe hfe
    simp only [List.mapM_nil, Option.pure_def, Option.some.injEq] at h
    rw [← h] at hfe
    simp at hfe
  | cons d ds ih =>
    intro fs h fe hfe
    rw [List.mapM_cons] at h
    simp only [Option.bind_eq_bind, Option.bind_eq_some, Option.pure_def,
      Option.some.injEq] at h
    obtain ⟨f0, hf0, f1, hf1, hcons⟩ := h
    rw [← hcons] at hfe
    rcases List.mem_cons.mp hfe with h1 | h2
    · exact ⟨d, h1 ▸ hf0⟩
    · exact ih hf1 fe h2

/-- C4 counterexample: `api_report_data` does *not* put a Document with an
empty period string after the parsable ones.  `main.py:230` gives an empty
period the sort key `""`, which sorts *before* every ISO date string, so
the empty-period document comes first. -/
theorem c4_counterexample :
    apiReportFiles [⟨"r1", "d1", "01.01.2023 - 31.01.2023", []⟩,
        ⟨"r2", "d2", "", []⟩] =
      some [FEntry.mk "" "" "r2" "d2" [],
        FEntry.mk "01.01.2023 - 31.01.2023" "2023-01-01T00:00:00" "r1" "d1" []] := by
  rfl

/-- C4 amended: `api_report_data` stable-sorts the file entries by their
`period_start` *string*.  A non-empty unparsable period gets
`datetime.max.isoformat()` and sorts after every entry with a parsable
period, but an *empty* period string gets the key `""` and sorts before
all entries with non-empty keys.  Stability: entries with equal keys keep
their input order (the filter by any fixed key is unchanged by the
sort). -/
theorem c4_amended (docs : List Document) (fs : List FEntry)
    (h : apiReportFiles docs = some fs) :
    fs.Pairwise (fun a b => pyStrLe a.period_start b.period_start = true ∧
      (a.period_start = isoMax → b.period_start = isoMax) ∧
      (b.period_start = "" → a.period_start = "")) ∧
    ∃ fs0, docs.mapM toFEntry = some fs0 ∧ fs.Perm fs0 ∧
      ∀ k : String, fs.filter (fun e => e.period_start == k) =
        fs0.filter (fun e => e.period_start == k) := by
  unfold apiReportFiles at h
  rcases hm : docs.mapM toFEntry with _ | fs0
  · rw [hm] at h
    simp at h
  · rw [hm] at h
    have h2 : some (fs0.insertionSort
        (fun a b => pyStrLe a.period_start b.period_start = true)) =
        some fs := h
    have hfs := Option.some.inj h2
    haveI : IsTotal FEntry
        (fun a b => pyStrLe a.period_start b.period_start = true) :=
      ⟨fun a b => by
        have := pyStrLe_total a.period_start b.period_start
        rw [Bool.or_eq_true] at this
        exact this⟩
    haveI : IsTrans FEntry
        (fun a b => pyStrLe a.period_start b.period_start = true) :=
      ⟨fun _ _ _ => pyStrLe_trans⟩
    have hperm := List.perm_insertionSort
      (fun (a b : FEntry) => pyStrLe a.period_start b.period_start = true) fs0
    rw [hfs] at hperm
    constructor
    · have hsorted := List.sorted_insertionSort
        (fun (a b : FEntry) => pyStrLe a.period_start b.period_start = true) fs0
      rw [hfs] at hsorted
      refine hsorted.imp_of_mem ?_
      intro a b ha hb hle
      obtain ⟨da, hda⟩ := mapM_toFEntry_mem hm a (hperm.mem_iff.mp ha)
      obtain ⟨db, hdb⟩ := mapM_toFEntry_mem hm b (hperm.mem_iff.mp hb)
      refine ⟨hle, ?_, ?_⟩
      · intro hmax
        apply fe_ps_isoMax_of_ge hdb
        unfold pyStrLe at hle
        rw [hmax] at hle
        simp only [Bool.not_eq_true'] at hle
        exact hle
      · intro hemp
        unfold pyStrLe at hle
        rw [hemp] at hle
        simp only [Bool.not_eq_true'] at hle
        have := clLt_nil_eq_false hle
        exact String.ext this
    · refine ⟨fs0, rfl, hperm, ?_⟩
      intro k
      set p : FEntry → Bool := fun e => e.period_start == k with hp
      have hall : ∀ a ∈ fs0.filter p, a.period_start = k := by
        intro a ha
        have := (List.mem_filter.mp ha).2
        rw [hp] at this
        exact beq_iff_eq.mp this
      have hpair : (fs0.filter p).Pairwise
          (fun a b => pyStrLe a.period_start b.period_start = true) := by
        apply List.pairwise_of_forall_mem_list
        intro a ha b hb
        rw [hall a ha, hall b hb]
        exact pyStrLe_refl k
      have hsub : (fs0.filter p).Sublist fs :=
        hfs ▸ List.sublist_insertionSort hpair (List.filter_sublist fs0)
      have hsub2 : (fs0.filter p).Sublist (fs.filter p) := by
        have := List.Sublist.filter p hsub
        rwa [List.filter_eq_self.mpr (fun a ha => (List.mem_filter.mp ha).2)]
          at this
      have hlen : (fs.filter p).length = (fs0.filter p).length :=
        (hperm.filter p).length_eq
      exact (List.Sublist.eq_of_length hsub2 hlen.symm).symm

/-- Witness for `c4_amended` on the two-document input of the
counterexample. -/
theorem c4_witness :
    ([FEntry.mk "" "" "r2" "d2" [],
      FEntry.mk "01.01.2023 - 31.01.2023" "2023-01-01T00:00:00" "r1" "d1"
        []].Pairwise
      (fun a b => pyStrLe a.period_start b.period_start = true ∧
        (a.period_start = isoMax → b.period_start = isoMax) ∧
        (b.period_start = "" → a.period_start = ""))) ∧
    ∃ fs0, [(⟨"r1", "d1", "01.01.2023 - 31.01.2023", []⟩ : Document),
        ⟨"r2", "d2", "", []⟩].mapM toFEntry = some fs0 ∧
      ([FEntry.mk "" "" "r2" "d2" [],
        FEntry.mk "01.01.2023 - 31.01.2023" "2023-01-01T00:00:00" "r1" "d1"
          []].Perm fs0) ∧
      ∀ k : String,
        [FEntry.mk "" "" "r2" "d2" [],
          FEntry.mk "01.01.2023 - 31.01.2023" "2023-01-01T00:00:00" "r1" "d1"
            []].filter (fun e => e.period_start == k) =
          fs0.filter (fun e => e.period_start == k) :=
  c4_amended
    [⟨"r1", "d1", "01.01.2023 - 31.01.2023", []⟩, ⟨"r2", "d2", "", []⟩]
    _ (by rfl)

/-! ### C8: numeric amounts in the analytics view -/

lemma coreOf_amount (words : List Token) (top : ℚ) :
    (coreOf words top).amount = "" ∨ reAmount (coreOf words top).amount = true := by
  unfold coreOf
  have haux : ∀ (l : List Token) (acc : CoreFields),
      acc.amount = "" ∨ reAmount acc.amount = true →
      (l.foldl classifyTok acc).amount = "" ∨
        reAmount (l.foldl classifyTok acc).amount = true := by
    intro l
    induction l with
    | nil => intro acc hacc; exact hacc
    | cons w ws ih =>
      intro acc hacc
      rw [List.foldl_cons]
      apply ih
      show (if amountAccepts w.x0 w.text then w.text else acc.amount) = "" ∨
        reAmount (if amountAccepts w.x0 w.text then w.text else acc.amount) = true
      by_cases hw : amountAccepts w.x0 w.text = true
      · rw [if_pos hw]
        unfold amountAccepts at hw
        simp only [Bool.and_eq_true] at hw
        exact Or.inr hw.2
      · rw [if_neg hw]
        exact hacc
  exact haux _ _ (Or.inl rfl)

lemma amountTail_decomp :
    ∀ {cs : List Char}, amountTail cs = true →
      ∃ mid d1 d2, cs = mid ++ '.' :: [d1, d2] ∧
        (∀ c ∈ mid, isDig c = true ∨ c = ',') ∧
        isDig d1 = true ∧ isDig d2 = true := by
  intro cs
  induction cs with
  | nil => intro h; simp [amountTail] at h
  | cons c rest ih =>
    intro h
    unfold amountTail at h
    by_cases hc : (c == '.') = true
    · rw [if_pos hc] at h
      have hcdot : c = '.' := eq_of_beq hc
      rcases rest with _ | ⟨d1, _ | ⟨d2, _ | _⟩⟩ <;>
        simp only [Bool.and_eq_true] at h
      · exact absurd h (by simp)
      · exact absurd h (by simp)
      · refine ⟨[], d1, d2, by rw [hcdot]; rfl, by simp, h.1, h.2⟩
      · exact absurd h (by simp)
    · rw [if_neg hc] at h
      simp only [Bool.and_eq_true, Bool.or_eq_true] at h
      obtain ⟨hcls, htail⟩ := h
      obtain ⟨mid, d1, d2, hrest, hmid, hd1, hd2⟩ := ih htail
      refine ⟨c :: mid, d1, d2, by rw [hrest]; rfl, ?_, hd1, hd2⟩
      intro x hx
      rcases List.mem_cons.mp hx with h1 | h2
      · rw [h1]
        rcases hcls with hd | hcm
        · exact Or.inl hd
        · exact Or.inr (eq_of_beq hcm)
      · exact hmid x h2

lemma isDig_not_special {c : Char} (h : isDig c = true) :
    (c = ',') = False ∧ (c = '.') = False ∧ isPyWs c = false ∧
    ((some c = some '+') = False) ∧ ((some c = some '-') = False) := by
  have hb := isDig_bounds h
  refine ⟨?_, ?_, ?_, ?_, ?_⟩
  · simp only [eq_iff_iff, iff_false]
    intro he
    rw [he] at hb
    exact absurd hb (by decide)
  · simp only [eq_iff_iff, iff_false]
    intro he
    rw [he] at hb
    exact absurd hb (by decide)
  · unfold isPyWs
    have h1 : (c == ' ') = false := by
      simp only [beq_eq_false_iff_ne, ne_eq]
      intro he; rw [he] at hb; exact absurd hb (by decide)
    have h2 : (c == '\t') = false := by
      simp only [beq_eq_false_iff_ne, ne_eq]
      intro he; rw [he] at hb; exact absurd hb (by decide)
    have h3 : (c == '\n') = false := by
      simp only [beq_eq_false_iff_ne, ne_eq]
      intro he; rw [he] at hb; exact absurd hb (by decide)
    have h4 : (c == '\r') = false := by
      simp only [beq_eq_false_iff_ne, ne_eq]
      intro he; rw [he] at hb; exact absurd hb (by decide)
    have h5 : (c == '\x0b') = false := by
      simp only [beq_eq_false_iff_ne, ne_eq]
      intro he; rw [he] at hb; exact absurd hb (by decide)
    have h6 : (c == '\x0c') = false := by
      simp only [beq_eq_false_iff_ne, ne_eq]
      intro he; rw [he] at hb; exact absurd hb (by decide)
    rw [h1, h2, h3, h4, h5, h6]
    rfl
  · simp only [Option.some.injEq, eq_iff_iff, iff_false]
    intro he
    rw [he] at hb
    exact absurd hb (by decide)
  · simp only [Option.some.injEq, eq_iff_iff, iff_false]
    intro he
    rw [he] at hb
    exact absurd hb (by decide)

lemma takeWhile_all_append {p : Char → Bool} {xs : List Char}
    (hall : ∀ c ∈ xs, p c = true) {y : Char} (hy : p y = false)
    (ys : List Char) :
    (xs ++ y :: ys).takeWhile p = xs ∧ (xs ++ y :: ys).dropWhile p = y :: ys := by
  induction xs with
  | nil =>
    simp only [List.nil_append, List.takeWhile_cons, List.dropWhile_cons, hy]
    exact ⟨rfl, rfl⟩
  | cons x xs ih =>
    have hx : p x = true := hall x (List.mem_cons_self _ _)
    have ih2 := ih (fun c hc => hall c (List.mem_cons_of_mem _ hc))
    simp only [List.cons_append, List.takeWhile_cons, List.dropWhile_cons, hx,
      if_true]
    exact ⟨by rw [ih2.1], by rw [ih2.2]⟩

lemma pyFloat_digits {ds : List Char} (hds : ds ≠ [])
    (hall : ∀ c ∈ ds, isDig c = true)
    {d1 d2 : Char} (hd1 : isDig d1 = true) (hd2 : isDig d2 = true) :
    ∃ q, pyFloat ⟨ds ++ '.' :: [d1, d2]⟩ = some q := by
  obtain ⟨c, ds', rfl⟩ := List.exists_cons_of_ne_nil hds
  have hcd : isDig c = true := hall c (List.mem_cons_self _ _)
  have hsp := isDig_not_special hcd
  have hdot : isDig '.' = false := by decide
  have htw := takeWhile_all_append (p := isDig) hall hdot [d1, d2]
  refine ⟨1 * ((digitsToNat (c :: ds') : ℚ) + fracVal [d1, d2]), ?_⟩
  unfold pyFloat
  have hdrop : ((⟨(c :: ds') ++ '.' :: [d1, d2]⟩ : String).data).dropWhile
      isPyWs = (c :: ds') ++ '.' :: [d1, d2] := by
    show ((c :: ds') ++ '.' :: [d1, d2]).dropWhile isPyWs = _
    rw [List.cons_append, List.dropWhile_cons, hsp.2.2.1]
    simp
  rw [hdrop]
  unfold pyFloatSigned
  have hhead : ((c :: ds') ++ '.' :: [d1, d2]).head? = some c := rfl
  rw [hhead]
  rw [if_neg (by
    rintro (h1 | h1)
    · exact hsp.2.2.2.1.mp h1
    · exact hsp.2.2.2.2.mp h1)]
  rw [if_neg (fun h1 => hsp.2.2.2.2.mp h1)]
  unfold pyFloatNum
  rw [htw.1, htw.2]
  unfold pyFloatFrac
  rw [if_pos (show (('.' :: [d1, d2] : List Char)).head? = some '.' from rfl)]
  have hfp : (('.' :: [d1, d2] : List Char).tail.takeWhile isDig) = [d1, d2] := by
    show List.takeWhile isDig [d1, d2] = [d1, d2]
    rw [List.takeWhile_eq_self_iff]
    intro x hx
    rcases List.mem_cons.mp hx with h1 | h2
    · rw [h1]; exact hd1
    · rw [List.mem_singleton.mp h2]; exact hd2
  have hfd : (('.' :: [d1, d2] : List Char).tail.dropWhile isDig) = [] := by
    show ([d1, d2] : List Char).dropWhile isDig = []
    rw [List.dropWhile_cons, hd1]
    simp only [if_true]
    rw [List.dropWhile_cons, hd2]
    simp
  rw [hfp, hfd]
  rw [if_neg (by simp)]
  show ((withExp ((digitsToNat (c :: ds') : ℚ) + fracVal [d1, d2]) []).bind
    fun p => if (p.2.dropWhile isPyWs).isEmpty then
      some ((1 : ℚ) * p.1) else none) = _
  rfl

/-- C8 confirmed: for every record the analytics entry point processes
(i.e. every record `parse_report_pdf` can produce), the numeric-amount
conversion of `main.py:225` never raises: the amount string is either
empty (numeric amount `0.0` without calling `float`) or matches
`\d[\d,]*\.\d{2}`, in which case `float` of the comma-stripped string
succeeds and is what the entry point stores. -/
theorem c8_confirmed (pages : List Page) (r : Record)
    (h : r ∈ (parseReportPdf pages).rows) :
    ∃ q : ℚ, amountNumeric r.amount_in = some q ∧
      (r.amount_in = "" → q = 0) ∧
      (r.amount_in ≠ "" → pyFloat (stripCommas r.amount_in) = some q) := by
  have hfl : r ∈ (pages.map (fun p => parseRows p.words)).flatten := h
  rw [List.mem_flatten] at hfl
  obtain ⟨l, hl, hr⟩ := hfl
  rw [List.mem_map] at hl
  obtain ⟨p, _, rfl⟩ := hl
  obtain ⟨iw, nt, rfl⟩ := mem_rowsAux (mem_of_mem_dedupAux hr)
  have hform : (rowFor p.words iw nt).amount_in = "" ∨
      reAmount (rowFor p.words iw nt).amount_in = true := coreOf_amount _ _
  rcases hform with hemp | hre
  · refine ⟨0, ?_, fun _ => rfl, fun hne => absurd hemp hne⟩
    rw [hemp]
    rfl
  · have hne : (rowFor p.words iw nt).amount_in ≠ "" := by
      intro he
      rw [he] at hre
      simp [reAmount] at hre
    unfold reAmount at hre
    rcases hd : (rowFor p.words iw nt).amount_in.data with _ | ⟨c, rest⟩
    · rw [hd] at hre
      exact absurd hre (by simp)
    · rw [hd] at hre
      have hre2 : (isDig c && amountTail rest) = true := hre
      rw [Bool.and_eq_true] at hre2
      obtain ⟨mid, d1, d2, hrest, hmid, hd1, hd2⟩ := amountTail_decomp hre2.2
      have hcne : c ≠ ',' := by
        intro he
        have hb := isDig_bounds hre2.1
        rw [he] at hb
        exact absurd hb (by decide)
      have hstr : stripCommas (rowFor p.words iw nt).amount_in =
          ⟨(c :: mid.filter (fun x => x ≠ ',')) ++ '.' :: [d1, d2]⟩ := by
        unfold stripCommas
        apply String.ext
        show (rowFor p.words iw nt).amount_in.data.filter (fun x =>
          x ≠ ',') = _
        rw [hd, hrest]
        rw [List.filter_cons_of_pos (by simpa using hcne)]
        rw [List.filter_append]
        have hdot3 : (('.' :: [d1, d2] : List Char).filter
            (fun x => x ≠ ',')) = '.' :: [d1, d2] := by
          rw [List.filter_eq_self]
          intro a ha
          rcases List.mem_cons.mp ha with h1 | h2
          · rw [h1]; decide
          · rcases List.mem_cons.mp h2 with h3 | h4
            · rw [h3]
              simp only [ne_eq, decide_not, Bool.not_eq_eq_eq_not,
                Bool.not_true, decide_eq_false_iff_not]
              intro he
              have hb := isDig_bounds hd1
              rw [he] at hb
              exact absurd hb (by decide)
            · rw [List.mem_singleton.mp h4]
              simp only [ne_eq, decide_not, Bool.not_eq_eq_eq_not,
                Bool.not_true, decide_eq_false_iff_not]
              intro he
              have hb := isDig_bounds hd2
              rw [he] at hb
              exact absurd hb (by decide)
        rw [hdot3]
        rfl
      have hds_ne : (c :: mid.filter (fun x => x ≠ ',')) ≠ [] := by simp
      have hds_dig : ∀ x ∈ c :: mid.filter (fun x => x ≠ ','),
          isDig x = true := by
        intro x hx
        rcases List.mem_cons.mp hx with h1 | h2
        · rw [h1]; exact hre2.1
        · have hm := List.mem_filter.mp h2
          rcases hmid x hm.1 with hdig | hcomma
          · exact hdig
          · exfalso
            have := hm.2
            rw [hcomma] at this
            simp at this
      obtain ⟨q, hq⟩ := pyFloat_digits hds_ne hds_dig hd1 hd2
      refine ⟨q, ?_, fun he => absurd he hne, fun _ => ?_⟩
      · show amountNumeric _ = some q
        unfold amountNumeric
        rw [if_neg hne, hstr]
        exact hq
      · rw [hstr]
        exact hq

/-- Witness for `c8_confirmed`: a page with one anchor row carrying the
amount token `1,234.56`. -/
theorem c8_witness :
    ∃ q : ℚ, amountNumeric (Record.mk "123456789012" "123456789012" "" "" ""
        "1,234.56").amount_in = some q ∧
      ((Record.mk "123456789012" "123456789012" "" "" ""
        "1,234.56").amount_in = "" → q = 0) ∧
      ((Record.mk "123456789012" "123456789012" "" "" ""
        "1,234.56").amount_in ≠ "" →
        pyFloat (stripCommas (Record.mk "123456789012" "123456789012" "" "" ""
          "1,234.56").amount_in) = some q) :=
  c8_confirmed
    [⟨"", [⟨"123456789012", 10, 100⟩, ⟨"1,234.56", 510, 100⟩]⟩] _ (by decide)
